/-
Verification of the cpuinfo feature-extraction and reconciliation engine
(`node_features_cpuinfo.c`) against its natural-language specification.

C strings are modelled as `List Char` (NUL-free payloads; where the code's
behaviour depends on the NUL terminator, the terminator is made explicit).
The libc routines the code relies on (`strstr`, `strtok_r`, `strtod`,
`isspace`, ...) are embedded with their standard semantics on such lists;
`strtod` is embedded on its plain decimal-fraction subset (no exponents,
hex, inf or nan forms — none of which can occur in a `cache size` value),
with exact rational arithmetic standing in for `double` (the only scalings
performed are by powers of two, which are exact in `double` for the
magnitudes involved).
-/
import Mathlib

set_option maxRecDepth 10000
set_option linter.unusedVariables false

/-! ## Character classes (C locale, as used by the source) -/

/-- C `isspace` for the default locale. -/
def isSpaceC (c : Char) : Bool :=
  c = ' ' || c = '\t' || c = '\n' || c = '\x0b' || c = '\x0c' || c = '\r'

/-- C `isdigit`. -/
def isDigitC (c : Char) : Bool := '0' ≤ c && c ≤ '9'

/-- C `isalpha` (ASCII letters). -/
def isAlphaC (c : Char) : Bool := ('A' ≤ c && c ≤ 'Z') || ('a' ≤ c && c ≤ 'z')

/-- C `isalnum`. -/
def isAlnumC (c : Char) : Bool := isAlphaC c || isDigitC c

/-- Abbreviation: the character list of a string literal. -/
def chars (s : String) : List Char := s.data

/-! ## `strstr` and `__contains_str` (node_features_cpuinfo.c:1950-1973) -/

/-- Index of the first occurrence of `n` in `h` (libc `strstr`); `some 0`
when `n` is empty, `none` when `n` does not occur. -/
def strstrIdx (h n : List Char) : Option Nat :=
  (List.range (h.length + 1)).find? (fun i => n.isPrefixOf (h.drop i))

/-- Scan loop of `__contains_str`: find an occurrence of `n`, accept it when
the character just past it is the terminator or one of the delimiters, and
otherwise resume the search just past the failed occurrence.  The fuel
argument bounds the recursion; `h.length + 1` is always enough when `n` is
nonempty (the needles supplied by the source are `strtok` tokens and static
flag names, all nonempty). -/
def containsStrLoop : Nat → List Char → List Char → List Char → Bool
  | 0, _, _, _ => false
  | fuel + 1, h, n, d =>
    match strstrIdx h n with
    | none => false
    | some i =>
      match h.drop (i + n.length) with
      | [] => true
      | c :: rest => if d.contains c then true else containsStrLoop fuel (c :: rest) n d

/-- Embedding of `__contains_str(haystack, needle, delimiter)`:
empty haystack fails immediately; a NULL/empty delimiter defaults to
`" \t"`. -/
def contains_str (h n d : List Char) : Bool :=
  let dd := if d = [] then [' ', '\t'] else d
  if h = [] then false else containsStrLoop (h.length + 1) h n dd

/-- Specification-side predicate: `n` occurs somewhere in `h` immediately
followed by one of the delimiters in `d` or by the end of the string.  This
is the right-boundary-only membership notion that `__contains_str`
implements (soundness is proved below); the occurrence need not start at a
token boundary. -/
def occursFollowedBy (h n d : List Char) : Bool :=
  (List.range (h.length + 1)).any (fun i =>
    n.isPrefixOf (h.drop i) &&
      (match (h.drop i).drop n.length with
       | [] => true
       | c :: _ => d.contains c))

/-! ## `strtok_r` tokenization -/

/-- Accumulator-style splitter underlying the `strtok_r` model: maximal
nonempty runs of non-delimiter characters, in order. -/
def tokenizeAux (p : Char → Bool) : List Char → List Char → List (List Char)
  | [], cur => if cur = [] then [] else [cur]
  | c :: rest, cur =>
    if p c then
      (if cur = [] then tokenizeAux p rest [] else cur :: tokenizeAux p rest [])
    else tokenizeAux p rest (cur ++ [c])

/-- Token sequence produced by repeated `strtok_r` calls with a
single-character delimiter class `p`. -/
def tokenizeP (p : Char → Bool) (s : List Char) : List (List Char) :=
  tokenizeAux p s []

/-- Tokens of `s` under the single delimiter character `d` (the source uses
`","` and `"&"`). -/
def tokenize (d : Char) (s : List Char) : List (List Char) :=
  tokenizeP (fun c => c = d) s

/-- Buffer left behind by a completed `strtok_r` sweep over `s`: the single
delimiter character that follows each token is overwritten with NUL; leading
delimiters and a token that runs to the end of the buffer are left as-is.
The fuel argument bounds the recursion; `s.length` is always enough. -/
def strtokMutate (d : Char) : Nat → List Char → List Char
  | _, [] => []
  | 0, s => s
  | fuel + 1, s =>
    let lead := s.takeWhile (fun c => c = d)
    let rest := s.drop lead.length
    match rest with
    | [] => lead
    | _ :: _ =>
      let tok := rest.takeWhile (fun c => c ≠ d)
      let after := rest.drop tok.length
      match after with
      | [] => lead ++ tok
      | _ :: more => lead ++ tok ++ '\x00' :: strtokMutate d fuel more

/-- Contents of a mutated buffer as seen through C-string reads: everything
up to the first NUL. -/
def cVisible (s : List Char) : List Char := s.takeWhile (fun c => c ≠ '\x00')

/-! ## Feature-string ownership (node_features_cpuinfo.c:1657-1672)

The optional PCI subsystem (`HAVE_PCI_DETECTION`) is not part of this
build, so the `PCI::` prefix is not recognized, matching the default
compile of the source. -/

/-- Embedding of `str_startswith(string, prefix_arg, strlen(string))`. -/
def str_startswith (s p : List Char) : Bool := p.isPrefixOf s

/-- Embedding of `cpuinfo_features_is_str_ours` (full-length search). -/
def cpuinfo_features_is_str_ours (s : List Char) : Bool :=
  str_startswith s (chars "VENDOR::") || str_startswith s (chars "MODEL::") ||
  str_startswith s (chars "CACHE::") || str_startswith s (chars "ISA::")

/-! ## `node_features_p_node_xlate` (node_features_cpuinfo.c:2626-2672) -/

/-- Body of the token loop of `node_features_p_node_xlate`: a token of
`orig_features` is appended (with a comma, the output being nonempty in
this branch) unless it is owned by the engine or `__contains_str` already
finds it in the accumulated output with delimiter `","`. -/
def xlateStep (out t : List Char) : List Char :=
  if cpuinfo_features_is_str_ours t then out
  else if contains_str out t [','] then out
  else out ++ ',' :: t

/-- Embedding of `node_features_p_node_xlate` (absent and empty inputs both
modelled as `[]`, as `xstrdup NULL = NULL` keeps them interchangeable
here).  `avail_features` is accepted and ignored exactly as in the
source. -/
def node_features_p_node_xlate (new_features orig_features avail_features : List Char) :
    List Char :=
  if new_features = [] then orig_features
  else if orig_features = [] then new_features
  else (tokenize ',' orig_features).foldl xlateStep new_features

/-- Modelled from the claim wording of C1 for comparison with the code:
identical to `node_features_p_node_xlate` except that "already present" is
decided by exact string match against the existing comma-separated result
tokens. -/
def node_xlate_claimed (new_features orig_features : List Char) : List Char :=
  if new_features = [] then orig_features
  else if orig_features = [] then new_features
  else
    (tokenize ',' orig_features).foldl
      (fun out t =>
        if cpuinfo_features_is_str_ours t then out
        else if (tokenize ',' out).contains t then out
        else out ++ ',' :: t)
      new_features

/-! ## `node_features_p_job_xlate` (node_features_cpuinfo.c:2510-2536) -/

/-- Embedding of `node_features_p_job_xlate`.  The `&`-tokens owned by the
engine are joined with `","` (the literal written into `xstrfmtcat`); when
none is owned the function returns the `xstrdup`ed copy that `strtok_r`
has already mutated, so the caller sees that buffer only up to the first
written NUL. -/
def jobXlateStep (o t : List Char) : List Char :=
  if cpuinfo_features_is_str_ours t then (if o = [] then t else o ++ ',' :: t) else o

def node_features_p_job_xlate (job_features : List Char) : Option (List Char) :=
  if job_features = [] then none
  else
    let out := (tokenize '&' job_features).foldl jobXlateStep []
    if out = [] then some (cVisible (strtokMutate '&' job_features.length job_features))
    else some out

/-- Specification-side comma join of a token list (empty list joins to the
empty string). -/
def joinComma : List (List Char) → List Char
  | [] => []
  | t :: ts => t ++ (ts.map (fun u => ',' :: u)).flatten

/-! ## ISA flags (node_features_cpuinfo.c:1593-1631, 1983-1998) -/

/-- The fixed flag vocabulary, ordered to match the bit enumeration. -/
def cpuinfo_flags_strings : List (List Char) :=
  [chars "sse", chars "sse2", chars "ssse3", chars "sse4_1", chars "sse4_2",
   chars "avx", chars "avx2", chars "avx512f", chars "avx512dq", chars "avx512cd",
   chars "avx512bw", chars "avx512vl", chars "avx512_vnni"]

/-- Embedding of `cpuinfo_parse_flags`: rebuild the bitmap from scratch,
setting bit `i` when `__contains_str(text, flag_i, NULL)` holds (NULL
delimiter, hence the `" \t"` default). -/
def cpuinfo_parse_flags (text : List Char) : Nat :=
  (List.range cpuinfo_flags_strings.length).foldl
    (fun fl i =>
      if contains_str text (cpuinfo_flags_strings.getD i []) [] then fl ||| (1 <<< i) else fl)
    0

/-- Specification-side whole-token membership used by claim C4: the tokens
of a flags line are the maximal runs bounded by space, tab or the ends of
the string. -/
def wsTokens (s : List Char) : List (List Char) :=
  tokenizeP (fun c => c = ' ' || c = '\t') s

/-! ## `cpuinfo_parse_cache_size` (node_features_cpuinfo.c:1791-1823) -/

/-- Decimal value of a digit run. -/
def digitsValN (ds : List Char) : Nat :=
  ds.foldl (fun a c => 10 * a + (c.toNat - ('0').toNat)) 0

/-- Sign prefix consumed by `strtod`: (sign, characters consumed). -/
def signOf (s : List Char) : ℚ × Nat :=
  match s with
  | c :: _ => if c = '-' then (-1, 1) else if c = '+' then (1, 1) else (1, 0)
  | [] => (1, 0)

/-- Fractional part consumed by `strtod`: (fraction digits, characters
consumed including the point). -/
def fracOf (s : List Char) : List Char × Nat :=
  match s with
  | c :: r =>
    if c = '.' then (r.takeWhile isDigitC, 1 + (r.takeWhile isDigitC).length) else ([], 0)
  | [] => ([], 0)

/-- Embedding of `strtod` on its decimal-fraction subset: returns the exact
value and the number of characters consumed; a consumed count of `0` means
no conversion was performed (`endp == text`). -/
def strtodQ (s : List Char) : ℚ × Nat :=
  let ws := s.takeWhile isSpaceC
  let s1 := s.drop ws.length
  let sg := signOf s1
  let s2 := s1.drop sg.2
  let ip := s2.takeWhile isDigitC
  let s3 := s2.drop ip.length
  let fr := fracOf s3
  if ip.length + fr.1.length = 0 then (0, 0)
  else
    (sg.1 * ((digitsValN ip : ℚ) + (digitsValN fr.1 : ℚ) / (10 : ℚ) ^ fr.1.length),
     ws.length + sg.2 + ip.length + fr.2)

/-- Truncation performed by the `(unsigned int)` cast for the nonnegative
values that arise here (a negative `double` to `unsigned` cast is not
defined by C; `Nat.floor` maps those to 0). -/
def truncToNat (v : ℚ) : Nat := ⌊v⌋₊

/-- Embedding of `cpuinfo_parse_cache_size`: `strtod`, skip whitespace,
then the cascading unit switch (`G` falls through `M` falls through `K`,
which advances past the unit; a bare `B` divides by 1024 without
advancing), then accept exactly when the character now under the cursor is
`B`/`b` or the terminator. -/
def cpuinfo_parse_cache_size (text : List Char) : Option Nat :=
  let r := strtodQ text
  if r.2 = 0 then none
  else
    let endp := (text.drop r.2).dropWhile isSpaceC
    let step : ℚ × List Char :=
      match endp with
      | c :: cs0 =>
        if c.toUpper = 'G' then (r.1 * 1024 * 1024, cs0)
        else if c.toUpper = 'M' then (r.1 * 1024, cs0)
        else if c.toUpper = 'K' then (r.1, cs0)
        else if c.toUpper = 'B' then (r.1 / 1024, c :: cs0)
        else (r.1, c :: cs0)
      | [] => (r.1, [])
    match step.2 with
    | [] => some (truncToNat step.1)
    | c :: _ => if c.toUpper = 'B' then some (truncToNat step.1) else none

/-! ## `cpuinfo_parse_model_name` (node_features_cpuinfo.c:1839-1940)

The generic scan's inner skip loop, `while ( ! isalnum(*s) ) s++;`, has no
NUL check: whenever the remaining suffix contains no alphanumeric
character at all (and is nonempty, so the outer loop was entered), the
pointer walks past the terminator and the read is out of bounds.  The
embedding makes that reachable undefined behaviour explicit as the
`overrun` outcome. -/

/-- Outcome of the model-name extraction. -/
inductive ModelScan where
  | found (m : List Char)
  | nomatch
  | overrun
deriving DecidableEq

/-- Space-to-underscore rewriting applied to the copied span. -/
def undscr (s : List Char) : List Char :=
  s.map (fun c => if c = ' ' then '_' else c)

/-- The anchored ("Gold "/"EPYC ") match attempt: `anch` is the suffix of
the input starting at the found literal; the span kept on success runs
from the literal through the digit and trailing alnum/dash run. -/
def anchoredMatch (anch : List Char) : Option (List Char) :=
  match anch.drop 5 with
  | [] => none
  | c :: rest =>
    if isAlnumC c then
      let t1 := rest.takeWhile (fun x => isAlphaC x || x = '-')
      match rest.drop t1.length with
      | d :: rest2 =>
        if isDigitC d then
          some (anch.take (5 + 1 + t1.length + 1 +
            (rest2.takeWhile (fun x => isAlnumC x || x = '-')).length))
        else none
      | [] => none
    else none

/-- One generic match attempt at a position whose first character is
alphanumeric: alnum, alpha/dash run, digit, alnum/dash run, then the
optional `" v<digits>"` version suffix (generic path only). -/
def genericTry (s : List Char) : Option (List Char) :=
  match s with
  | [] => none
  | _ :: rest =>
    let t1 := rest.takeWhile (fun x => isAlphaC x || x = '-')
    match rest.drop t1.length with
    | d :: rest2 =>
      if isDigitC d then
        let e := 1 + t1.length + 1 + (rest2.takeWhile (fun x => isAlnumC x || x = '-')).length
        let e2 :=
          match s.drop e with
          | ' ' :: 'v' :: d2 :: _ =>
            if isDigitC d2 then e + 2 + ((s.drop (e + 2)).takeWhile isDigitC).length else e
          | _ => e
        some (s.take e2)
      else none
    | [] => none

/-- The generic scan loop.  Skipping the non-alphanumeric run mirrors the
unguarded C loop: when the current suffix is nonempty but contains no
alphanumeric character the skip crosses the NUL terminator — `overrun`.
Fuel `s.length + 1` is always sufficient. -/
def genericScanF : Nat → List Char → ModelScan
  | 0, _ => ModelScan.nomatch
  | _, [] => ModelScan.nomatch
  | fuel + 1, s =>
    match s.dropWhile (fun c => !(isAlnumC c)) with
    | [] => ModelScan.overrun
    | c :: tail =>
      match genericTry (c :: tail) with
      | some m => ModelScan.found m
      | none => genericScanF fuel tail

/-- The generic phase over the whole input, with the underscore rewrite
applied to a successful span. -/
def genericPhase (text : List Char) : ModelScan :=
  match genericScanF (text.length + 1) text with
  | ModelScan.found m => ModelScan.found (undscr m)
  | r => r

/-- Embedding of `cpuinfo_parse_model_name`: anchor on a literal
`"Gold "` (preferred) or `"EPYC "`; on an anchored match keep the family
name in the span; otherwise fall back to the generic whole-string scan. -/
def cpuinfo_parse_model_name (text : List Char) : ModelScan :=
  let anchor :=
    match strstrIdx text (chars "Gold ") with
    | some i => some i
    | none => strstrIdx text (chars "EPYC ")
  match anchor with
  | some i =>
    match anchoredMatch (text.drop i) with
    | some m => ModelScan.found (undscr m)
    | none => genericPhase text
  | none => genericPhase text

/-! ## The `cpuinfo_features_t` record and its rendering
(node_features_cpuinfo.c:1638-1643, 2441-2489) -/

/-- Embedding of `cpuinfo_features_t`. -/
structure cpuinfo_features where
  vendor_id : Option (List Char)
  model_name : Option (List Char)
  cache_kb : Nat
  flags : Nat
deriving DecidableEq

/-- One `xstrfmtcat(add_features, "%s…", delim, …)` step: append the
current delimiter then the atom, and make the delimiter `","`. -/
def emitAtom (sd : List Char × List Char) (atom : List Char) : List Char × List Char :=
  (sd.1 ++ sd.2 ++ atom, [','])

/-- The `add_features` string built by `node_features_p_node_state`
(without the optional PCI contribution, which is not compiled in):
VENDOR if present, MODEL if present, CACHE gated on `model_name`, then the
ISA flags in enumeration order.  An empty result models the NULL
`add_features` (nothing appended to the host strings). -/
def node_state_features (cif : cpuinfo_features) : List Char :=
  let sd : List Char × List Char := ([], [])
  let sd := match cif.vendor_id with
    | some v => emitAtom sd (chars "VENDOR::" ++ v)
    | none => sd
  let sd := match cif.model_name with
    | some m => emitAtom sd (chars "MODEL::" ++ m)
    | none => sd
  let sd := match cif.model_name with
    | some _ => emitAtom sd (chars "CACHE::" ++ (Nat.repr cif.cache_kb).data ++ chars "KB")
    | none => sd
  ((List.range cpuinfo_flags_strings.length).foldl
    (fun sd i =>
      if cif.flags &&& (1 <<< i) = 1 <<< i then
        emitAtom sd (chars "ISA::" ++ cpuinfo_flags_strings.getD i [])
      else sd)
    sd).1

/-- Specification-side atom list for the render: the fixed order and the
CACHE-gated-on-model quirk, stated declaratively for comparison with the
imperative string building. -/
def featureAtoms (cif : cpuinfo_features) : List (List Char) :=
  (match cif.vendor_id with
   | some v => [chars "VENDOR::" ++ v]
   | none => []) ++
  (match cif.model_name with
   | some m => [chars "MODEL::" ++ m]
   | none => []) ++
  (match cif.model_name with
   | some _ => [chars "CACHE::" ++ (Nat.repr cif.cache_kb).data ++ chars "KB"]
   | none => []) ++
  ((List.range cpuinfo_flags_strings.length).filter (fun i => cif.flags.testBit i)).map
    (fun i => chars "ISA::" ++ cpuinfo_flags_strings.getD i [])

/-! ## The stream line reader (node_features_cpuinfo.c:1394-1588)

The stdio stream is modelled as the list of bytes it will still deliver
plus the `ferror` flag that becomes observable once the bytes run out.
Allocation is assumed to succeed (the ENOMEM paths are not modelled). -/

/-- A stdio stream: remaining bytes and whether `ferror` reports a read
error after they are exhausted. -/
structure IOStream where
  data : List Char
  ioerr : Bool
deriving DecidableEq

/-- Reader state: stream, noted error code, chunk size, and the unread
portion of the chunk buffer (`buffer_ptr` .. `buffer_end`). -/
structure LineReader where
  stream : IOStream
  err_code : Int
  chunk_size : Nat
  chunk : List Char
deriving DecidableEq

/-- One `fread` of at most `n` bytes: a regular file delivers bytes until
the data runs out, then returns 0 bytes. -/
def streamRead (s : IOStream) (n : Nat) : List Char × IOStream :=
  (s.data.take n, ⟨s.data.drop n, s.ioerr⟩)

/-- Unconsumed bytes still ahead of a reader: the unread chunk remainder
followed by the bytes the stream will still deliver. -/
def lrPending (r : LineReader) : List Char := r.chunk ++ r.stream.data

/-- The inner consume loop of `line_reader_nextline`: move bytes from the
chunk buffer into the line buffer until a terminator (`'\n'` or NUL) is
copied or the chunk is exhausted.  Returns (remaining chunk, line buffer,
`is_done`). -/
def isTermC (c : Char) : Bool := c = '\n' || c = '\x00'

def consumeChunk : List Char → List Char → List Char × List Char × Bool
  | [], line => ([], line, false)
  | c :: rest, line =>
    if isTermC c then (rest, line ++ [c], true)
    else consumeChunk rest (line ++ [c])

/-- The outer loop of `line_reader_nextline`.  Faithful to the source,
including its chunk-boundary behaviour: when the chunk is exhausted the
reader refills **before** checking `is_done`, so at end of stream a
completed line still in the buffer is discarded, and after a successful
refill the (re-initialized) `is_done` lets consumption continue past a
terminator already copied into the line buffer.  Fuel
`r.stream.data.length + 1` is always sufficient. -/
def nextlineF : Nat → LineReader → List Char → Option (List Char) × LineReader
  | 0, r, _ => (none, { r with err_code := 2 })
  | fuel + 1, r, line =>
    let step := consumeChunk r.chunk line
    if step.1 = [] then
      let rd := streamRead r.stream r.chunk_size
      if rd.1 = [] then
        (none,
          { r with stream := rd.2, chunk := [], err_code := if rd.2.ioerr then (-1 : Int) else 0 })
      else nextlineF fuel { r with stream := rd.2, chunk := rd.1 } step.2.1
    else (some step.2.1, { r with chunk := step.1 })

/-- Embedding of `line_reader_nextline` (the returned line is the raw byte
run copied into the line buffer, terminator included; the convenience NUL
the source appends afterwards is not part of the payload). -/
def line_reader_nextline (r : LineReader) : Option (List Char) × LineReader :=
  nextlineF (r.stream.data.length + 1) r []

/-- Repeated `line_reader_nextline` until it returns NULL, collecting the
yielded lines.  Fuel `content.length + 1` is always sufficient. -/
def readAllF : Nat → LineReader → List (List Char) × LineReader
  | 0, r => ([], r)
  | fuel + 1, r =>
    match line_reader_nextline r with
    | (none, r2) => ([], r2)
    | (some l, r2) =>
      let rec2 := readAllF fuel r2
      (l :: rec2.1, rec2.2)

/-- Chunk-size clamp performed by `line_reader_create`. -/
def line_reader_create_cs (chunk_size : Nat) : Nat :=
  if chunk_size < 128 then 128 else chunk_size

/-- Full run of a line reader over a stream: the sequence of raw lines it
yields and the error code noted when it reports end of input. -/
def lrRun (content : List Char) (ioerr : Bool) (cs : Nat) : List (List Char) × Int :=
  let r : LineReader := ⟨⟨content, ioerr⟩, 0, line_reader_create_cs cs, []⟩
  let out := readAllF (content.length + 1) r
  (out.1, out.2.err_code)

/-- Index just past the last line terminator of `content` (0 when it has
none): the bytes from this index on are the unterminated final line. -/
def termEnd (content : List Char) : Nat :=
  content.length - (content.reverse.takeWhile (fun c => !(isTermC c))).length

/-! ## Line parsing and `cpuinfo_parse_file`
(node_features_cpuinfo.c:2050-2112) -/

/-- `line_reader_trim` on the C-string contents of the line buffer:
trailing then leading whitespace stripped. -/
def trimC (s : List Char) : List Char :=
  ((s.reverse.dropWhile isSpaceC).reverse).dropWhile isSpaceC

/-- Case-insensitive exact keyword match used by the registry lookup
(`strlen` equality plus `strncasecmp`). -/
def keywordMatches (a b : List Char) : Bool :=
  a.length = b.length && a.map Char.toLower = b.map Char.toLower

/-- Embedding of `cpuinfo_parse_line` composed with the registered parser
callbacks: returns the updated record (the Boolean result is discarded by
`cpuinfo_parse_file`, so it is not modelled).  A failing decoder leaves
the corresponding field unchanged; an unrecognized or colon-free line
changes nothing; the `overrun` outcome of the model-name scan has no
defined result in C and is modelled as leaving the record unchanged. -/
def cpuinfo_parse_line (cif : cpuinfo_features) (line : List Char) : cpuinfo_features :=
  let l1 := line.dropWhile isSpaceC
  if l1 = [] then cif
  else
    let beforeColon := l1.takeWhile (fun c => c ≠ ':')
    if l1.drop beforeColon.length = [] then cif
    else
      let featName := (beforeColon.reverse.dropWhile isSpaceC).reverse
      let value := (l1.drop (beforeColon.length + 1)).dropWhile isSpaceC
      if keywordMatches featName (chars "cache size") then
        match cpuinfo_parse_cache_size value with
        | some n => { cif with cache_kb := n }
        | none => cif
      else if keywordMatches featName (chars "flags") then
        { cif with flags := cpuinfo_parse_flags value }
      else if keywordMatches featName (chars "model name") then
        match cpuinfo_parse_model_name value with
        | ModelScan.found m => { cif with model_name := some m }
        | _ => cif
      else if keywordMatches featName (chars "vendor_id") then
        { cif with vendor_id := some value }
      else cif

/-- The read-trim-parse loop of `cpuinfo_parse_file`: stops at the first
line that trims to empty (only the first record block is consumed). -/
def parseLines (cif : cpuinfo_features) : List (List Char) → cpuinfo_features
  | [] => cif
  | l :: ls =>
    let t := trimC (cVisible l)
    if t = [] then cif
    else parseLines (cpuinfo_parse_line cif t) ls

/-- Embedding of `cpuinfo_parse_file`: `openOk` is whether
`line_reader_create` obtained the stream (`fopen` success); the function
returns false only in that failure case and true otherwise — the loop exit
condition never consults the reader's noted error code.  The chunk size
passed by the source is 0 (clamped to 128 by the constructor). -/
def cpuinfo_parse_file (cif : cpuinfo_features) (openOk : Bool) (content : List Char)
    (ioerr : Bool) : Bool × cpuinfo_features :=
  if openOk then (true, parseLines cif (lrRun content ioerr 0).1)
  else (false, cif)

/-- The first (cascading-unit) switch of `cpuinfo_parse_cache_size`,
abstracted over the numeric value and the text at the cursor. -/
def cacheUnitStep (v : ℚ) (u : List Char) : ℚ × List Char :=
  match u with
  | c :: cs0 =>
    if c.toUpper = 'G' then (v * 1024 * 1024, cs0)
    else if c.toUpper = 'M' then (v * 1024, cs0)
    else if c.toUpper = 'K' then (v, cs0)
    else if c.toUpper = 'B' then (v / 1024, c :: cs0)
    else (v, c :: cs0)
  | [] => (v, [])

/-- The second (acceptance) switch of `cpuinfo_parse_cache_size`. -/
def cacheFinish (step : ℚ × List Char) : Option Nat :=
  match step.2 with
  | [] => some (truncToNat step.1)
  | c :: _ => if c.toUpper = 'B' then some (truncToNat step.1) else none

/-! ## Concrete evaluations settling the claims that fail on concrete inputs -/

/-- Claim C1, counterexample: with `new_features = "xGen1"` and
`orig_features = "Gen1"`, the foreign token `Gen1` is not verbatim among
the result's comma-separated tokens, so the claim's appending rule demands
`"xGen1,Gen1"`; the code's `__contains_str` test accepts the mid-token
occurrence of `Gen1` inside `xGen1` (right boundary only) and appends
nothing. -/
theorem c1_xlate_counterexample :
    node_features_p_node_xlate (chars "xGen1") (chars "Gen1") [] = chars "xGen1" ∧
    node_xlate_claimed (chars "xGen1") (chars "Gen1") = chars "xGen1,Gen1" ∧
    chars "xGen1" ≠ chars "xGen1,Gen1" := by
  refine ⟨by decide, by decide, by decide⟩

/-- Claim C2, counterexample: owned tokens are joined with `","`, not
`"&"`, and when no token is owned the returned buffer has already been
mutated by `strtok_r`, so the caller sees only the first token — not the
entire original expression. -/
theorem c2_job_xlate_counterexample :
    node_features_p_job_xlate (chars "ISA::sse&ISA::avx") = some (chars "ISA::sse,ISA::avx") ∧
    chars "ISA::sse,ISA::avx" ≠ chars "ISA::sse&ISA::avx" ∧
    node_features_p_job_xlate (chars "foo&bar") = some (chars "foo") ∧
    chars "foo" ≠ chars "foo&bar" := by
  refine ⟨by decide, by decide, by decide, by decide⟩

/-- Claim C3, counterexample: the claim quantifies over every input, but in
the degenerate case `new_features = ""` the result is a verbatim copy of
`orig_features`, so an engine-owned token of `orig_features` that is absent
from `new_features` survives into the result. -/
theorem c3_reconciler_counterexample :
    node_features_p_node_xlate [] (chars "ISA::sse") [] = chars "ISA::sse" ∧
    cpuinfo_features_is_str_ours (chars "ISA::sse") = true ∧
    chars "ISA::sse" ∈ tokenize ',' (node_features_p_node_xlate [] (chars "ISA::sse") []) ∧
    chars "ISA::sse" ∉ tokenize ',' ([] : List Char) := by
  refine ⟨by decide, by decide, by decide, by decide⟩

/-- Claim C4, counterexample: in `"xsse"` the token `sse` occurs only as
the tail of the longer token `xsse`, yet bit 0 is set — `__contains_str`
checks the right boundary of a match but never the left one. -/
theorem c4_flags_counterexample :
    Nat.testBit (cpuinfo_parse_flags (chars "xsse")) 0 = true ∧
    chars "sse" ∉ wsTokens (chars "xsse") := by
  refine ⟨by decide, by decide⟩

/-- Claim C6: the two specified extractions hold, and on the input `"@"`
(no match anywhere, trailing non-alphanumeric run) the unguarded skip loop
of the generic scan runs past the NUL terminator instead of failing
cleanly — the undefined behaviour exhibited as `ModelScan.overrun`. -/
theorem c6_model_name :
    cpuinfo_parse_model_name (chars "Intel(R) Xeon(R) CPU E5-2695 v4 @ 2.10GHz") =
      ModelScan.found (chars "E5-2695_v4") ∧
    cpuinfo_parse_model_name (chars "AMD EPYC 7502 32-Core Processor") =
      ModelScan.found (chars "EPYC_7502") ∧
    cpuinfo_parse_model_name (chars "@") = ModelScan.overrun := by
  refine ⟨by decide, by decide, by decide⟩

/-- Claim C8, counterexample: a stream read error after a successful open
is noted in the reader's error code (−1, distinct from 0 at clean end of
stream), but `cpuinfo_parse_file` never consults it and still reports
success. -/
theorem c8_error_counterexample :
    (cpuinfo_parse_file ⟨none, none, 0, 0⟩ true [] true).1 = true ∧
    (lrRun [] true 0).2 = -1 := by
  refine ⟨by decide, by decide⟩

/-- Claim C9: the yielded line sequence is not invariant under the chunk
size.  With 130 bytes of content whose first newline falls exactly at byte
128, a chunk size of 128 makes the reader refill at the newline, keep
filling the same line buffer, and discard the merged line at end of
stream (no lines at all); a chunk size of 256 yields the first line. -/
theorem c9_chunk_divergence :
    lrRun (List.replicate 127 'a' ++ chars "\nX\n") false 128 = ([], 0) ∧
    lrRun (List.replicate 127 'a' ++ chars "\nX\n") false 256 =
      ([List.replicate 127 'a' ++ ['\n']], 0) := by
  refine ⟨by decide, by decide⟩

/-! ## Lemma development scratch -/

lemma tokenizeAux_mem (p : Char → Bool) :
    ∀ (s cur : List Char), (∀ c ∈ cur, p c = false) →
      ∀ t ∈ tokenizeAux p s cur, t ≠ [] ∧ ∀ c ∈ t, p c = false := by
  intro s
  induction s with
  | nil =>
    intro cur hcur t ht
    simp only [tokenizeAux] at ht
    by_cases h : cur = []
    · simp [h] at ht
    · simp [h] at ht
      exact ht ▸ ⟨h, hcur⟩
  | cons c rest ih =>
    intro cur hcur t ht
    simp only [tokenizeAux] at ht
    by_cases hpc : p c = true
    · simp [hpc] at ht
      by_cases h : cur = []
      · simp [h] at ht
        exact ih [] (by simp) t ht
      · simp [h] at ht
        rcases ht with rfl | ht
        · exact ⟨h, hcur⟩
        · exact ih [] (by simp) t ht
    · simp [hpc] at ht
      refine ih (cur ++ [c]) ?_ t ht
      intro x hx
      rcases List.mem_append.mp hx with hx | hx
      · exact hcur x hx
      · simp at hx
        subst hx
        simpa using hpc

lemma tokenizeP_mem (p : Char → Bool) (s t : List Char) (h : t ∈ tokenizeP p s) :
    t ≠ [] ∧ ∀ c ∈ t, p c = false :=
  tokenizeAux_mem p s [] (by simp) t h

lemma tokenizeAux_append_delim (p : Char → Bool) (d : Char) (hd : p d = true) :
    ∀ (a b cur : List Char),
      tokenizeAux p (a ++ d :: b) cur = tokenizeAux p a cur ++ tokenizeP p b := by
  intro a
  induction a with
  | nil =>
    intro b cur
    simp only [List.nil_append, tokenizeAux, tokenizeP, hd]
    by_cases h : cur = [] <;> simp [h, tokenizeAux]
  | cons c rest ih =>
    intro b cur
    simp only [List.cons_append, tokenizeAux]
    by_cases hpc : p c = true
    · by_cases h : cur = [] <;> simp [hpc, h, ih]
    · simp [hpc, ih]

lemma tokenizeP_append_delim (p : Char → Bool) (d : Char) (hd : p d = true)
    (a b : List Char) : tokenizeP p (a ++ d :: b) = tokenizeP p a ++ tokenizeP p b :=
  tokenizeAux_append_delim p d hd a b []

lemma tokenizeAux_no_delim (p : Char → Bool) :
    ∀ (t cur : List Char), (∀ c ∈ t, p c = false) →
      tokenizeAux p t cur = if cur ++ t = [] then [] else [cur ++ t] := by
  intro t
  induction t with
  | nil => intro cur h; simp [tokenizeAux]
  | cons c rest ih =>
    intro cur h
    have hc : p c = false := h c (by simp)
    simp only [tokenizeAux, hc]
    rw [ih (cur ++ [c]) (fun x hx => h x (by simp [hx]))]
    simp

lemma tokenizeP_single (p : Char → Bool) (t : List Char) (h1 : t ≠ [])
    (h2 : ∀ c ∈ t, p c = false) : tokenizeP p t = [t] := by
  unfold tokenizeP
  rw [tokenizeAux_no_delim p t [] h2]
  simp [h1]

lemma occursFollowedBy_intro (h n d : List Char) (i : Nat) (hi : i ≤ h.length)
    (hp : n.isPrefixOf (h.drop i) = true)
    (hnext : h.drop (i + n.length) = [] ∨
      ∃ c rest, h.drop (i + n.length) = c :: rest ∧ d.contains c = true) :
    occursFollowedBy h n d = true := by
  unfold occursFollowedBy
  rw [List.any_eq_true]
  refine ⟨i, by simpa using Nat.lt_succ_of_le hi, ?_⟩
  have hdd : (h.drop i).drop n.length = h.drop (i + n.length) := by
    rw [List.drop_drop, Nat.add_comm]
  rw [Bool.and_eq_true]
  refine ⟨hp, ?_⟩
  rcases hnext with he | ⟨c, rest, he, hc⟩
  · rw [hdd, he]
  · rw [hdd, he]
    simpa using hc

lemma occursFollowedBy_elim (h n d : List Char) (hocc : occursFollowedBy h n d = true) :
    ∃ i, i ≤ h.length ∧ n.isPrefixOf (h.drop i) = true ∧
      (h.drop (i + n.length) = [] ∨
        ∃ c rest, h.drop (i + n.length) = c :: rest ∧ d.contains c = true) := by
  unfold occursFollowedBy at hocc
  rw [List.any_eq_true] at hocc
  obtain ⟨i, hmem, hcond⟩ := hocc
  have hi : i ≤ h.length := by
    have := List.mem_range.mp hmem
    omega
  rw [Bool.and_eq_true] at hcond
  obtain ⟨hp, hrest⟩ := hcond
  have hdd : (h.drop i).drop n.length = h.drop (i + n.length) := by
    rw [List.drop_drop, Nat.add_comm]
  refine ⟨i, hi, hp, ?_⟩
  rw [hdd] at hrest
  cases he : h.drop (i + n.length) with
  | nil => exact Or.inl rfl
  | cons c rest =>
    rw [he] at hrest
    exact Or.inr ⟨c, rest, rfl, by simpa using hrest⟩

lemma occursFollowedBy_drop (h n d : List Char) (k : Nat)
    (hocc : occursFollowedBy (h.drop k) n d = true) : occursFollowedBy h n d = true := by
  obtain ⟨i, hi, hp, hrest⟩ := occursFollowedBy_elim _ _ _ hocc
  by_cases hk : k ≤ h.length
  · refine occursFollowedBy_intro h n d (k + i) ?_ ?_ ?_
    · have hlen : (h.drop k).length = h.length - k := by simp
      rw [hlen] at hi
      omega
    · rw [List.drop_drop] at hp
      exact hp
    · have heq : (h.drop k).drop (i + n.length) = h.drop (k + i + n.length) := by
        rw [List.drop_drop]
        congr 1
        omega
      rw [← heq]
      exact hrest
  · -- k is past the end: the dropped haystack is empty, so n is empty and
    -- an occurrence sits at the very end of h
    have hnil : h.drop k = [] := List.drop_eq_nil_of_le (by omega)
    rw [hnil] at hp hi
    have hn : n = [] := by
      cases n with
      | nil => rfl
      | cons a as => simp [List.isPrefixOf] at hp
    refine occursFollowedBy_intro h n d h.length (le_refl _) ?_ ?_
    · rw [hn]
      simp [List.isPrefixOf]
    · left
      rw [hn]
      simp

lemma strstrIdx_some (h n : List Char) (i : Nat) (hfind : strstrIdx h n = some i) :
    i ≤ h.length ∧ n.isPrefixOf (h.drop i) = true := by
  unfold strstrIdx at hfind
  have hp := List.find?_some hfind
  have hm := List.mem_of_find?_eq_some hfind
  have : i < h.length + 1 := List.mem_range.mp hm
  exact ⟨by omega, hp⟩

lemma containsStrLoop_sound (n d : List Char) :
    ∀ (fuel : Nat) (h : List Char), containsStrLoop fuel h n d = true →
      occursFollowedBy h n d = true := by
  intro fuel
  induction fuel with
  | zero => intro h hc; simp [containsStrLoop] at hc
  | succ fuel ih =>
    intro h hc
    unfold containsStrLoop at hc
    cases hfind : strstrIdx h n with
    | none => rw [hfind] at hc; simp at hc
    | some i =>
      rw [hfind] at hc
      obtain ⟨hi, hp⟩ := strstrIdx_some h n i hfind
      cases hrest : h.drop (i + n.length) with
      | nil =>
        exact occursFollowedBy_intro h n d i hi hp (Or.inl hrest)
      | cons c rest =>
        simp only [hrest] at hc
        by_cases hdc : d.contains c = true
        · exact occursFollowedBy_intro h n d i hi hp (Or.inr ⟨c, rest, hrest, hdc⟩)
        · rw [Bool.not_eq_true] at hdc
          rw [hdc] at hc
          simp at hc
          have hocc := ih (c :: rest) hc
          rw [← hrest] at hocc
          exact occursFollowedBy_drop h n d (i + n.length) hocc

lemma contains_str_sound (h n d : List Char) (hd : d ≠ [])
    (hc : contains_str h n d = true) : occursFollowedBy h n d = true := by
  unfold contains_str at hc
  simp only [hd, if_false] at hc
  by_cases hh : h = []
  · simp [hh] at hc
  · simp only [hh, if_false] at hc
    exact containsStrLoop_sound n d _ h hc

lemma contains_str_sound_default (h n : List Char)
    (hc : contains_str h n [] = true) : occursFollowedBy h n [' ', '\t'] = true := by
  unfold contains_str at hc
  simp only [if_pos rfl] at hc
  by_cases hh : h = []
  · simp [hh] at hc
  · simp only [hh, if_false] at hc
    exact containsStrLoop_sound n [' ', '\t'] _ h hc

lemma occursFollowedBy_append_comma (h t u : List Char)
    (hocc : occursFollowedBy h t [','] = true) :
    occursFollowedBy (h ++ ',' :: u) t [','] = true := by
  obtain ⟨i, hi, hp, hrest⟩ := occursFollowedBy_elim _ _ _ hocc
  have hdropapp : (h ++ ',' :: u).drop i = h.drop i ++ ',' :: u :=
    List.drop_append_of_le_length hi
  have hple : t.length ≤ (h.drop i).length :=
    (List.isPrefixOf_iff_prefix.mp hp).length_le
  have hbound : i + t.length ≤ h.length := by
    simp at hple
    omega
  have hdropapp2 : (h ++ ',' :: u).drop (i + t.length) = h.drop (i + t.length) ++ ',' :: u :=
    List.drop_append_of_le_length hbound
  refine occursFollowedBy_intro (h ++ ',' :: u) t [','] i (by simp; omega) ?_ ?_
  · rw [hdropapp]
    rcases List.isPrefixOf_iff_prefix.mp hp with ⟨z, hz⟩
    refine List.isPrefixOf_iff_prefix.mpr ⟨z ++ ',' :: u, ?_⟩
    rw [← hz]
    simp
  · rcases hrest with he | ⟨c, rest, he, hc⟩
    · right
      refine ⟨',', u, ?_, by simp⟩
      rw [hdropapp2, he]
      simp
    · right
      refine ⟨c, rest ++ ',' :: u, ?_, hc⟩
      rw [hdropapp2, he]
      simp

lemma occursFollowedBy_self (out t : List Char) :
    occursFollowedBy (out ++ ',' :: t) t [','] = true := by
  refine occursFollowedBy_intro (out ++ ',' :: t) t [','] (out.length + 1) (by simp) ?_ ?_
  · have hstep : (out ++ ',' :: t).drop (out.length + 1) = t := by
      rw [show out ++ ',' :: t = (out ++ [',']) ++ t by simp]
      rw [show out.length + 1 = (out ++ [',']).length by simp]
      exact List.drop_left _ _
    rw [hstep]
    exact List.isPrefixOf_iff_prefix.mpr (List.prefix_refl t)
  · left
    rw [show out ++ ',' :: t = (out ++ [',']) ++ t by simp]
    have hlen2 : out.length + 1 + t.length = ((out ++ [',']) ++ t).length := by
      simp
      omega
    rw [hlen2]
    exact List.drop_length _

lemma xlateStep_mono (out u t : List Char) (hocc : occursFollowedBy out t [','] = true) :
    occursFollowedBy (xlateStep out u) t [','] = true := by
  unfold xlateStep
  by_cases h1 : cpuinfo_features_is_str_ours u = true
  · simpa [h1] using hocc
  · by_cases h2 : contains_str out u [','] = true
    · simpa [h1, h2] using hocc
    · simp only [h1, h2, if_false]
      exact occursFollowedBy_append_comma out t u hocc

lemma xlateFold_mono (ts : List (List Char)) :
    ∀ (out t : List Char), occursFollowedBy out t [','] = true →
      occursFollowedBy (ts.foldl xlateStep out) t [','] = true := by
  induction ts with
  | nil => intro out t h; simpa using h
  | cons u ts ih =>
    intro out t h
    simp only [List.foldl_cons]
    exact ih (xlateStep out u) t (xlateStep_mono out u t h)

lemma xlateFold_spec (ts : List (List Char)) :
    ∀ out : List Char, ∃ app : List (List Char),
      ts.foldl xlateStep out = out ++ (app.map (fun t => ',' :: t)).flatten ∧
      app.Sublist ts ∧
      (∀ t ∈ app, cpuinfo_features_is_str_ours t = false) ∧
      (∀ t ∈ ts, cpuinfo_features_is_str_ours t = false →
        occursFollowedBy (ts.foldl xlateStep out) t [','] = true) := by
  induction ts with
  | nil =>
    intro out
    exact ⟨[], by simp, List.Sublist.refl _, by simp, by simp⟩
  | cons u ts ih =>
    intro out
    simp only [List.foldl_cons]
    by_cases h1 : cpuinfo_features_is_str_ours u = true
    · have hstep : xlateStep out u = out := by simp [xlateStep, h1]
      rw [hstep]
      obtain ⟨app, heq, hsub, hown, hocc⟩ := ih out
      refine ⟨app, heq, hsub.cons u, hown, ?_⟩
      intro t ht hto
      rcases List.mem_cons.mp ht with rfl | ht
      · rw [h1] at hto; cases hto
      · exact hocc t ht hto
    · by_cases h2 : contains_str out u [','] = true
      · have hstep : xlateStep out u = out := by simp [xlateStep, h1, h2]
        rw [hstep]
        obtain ⟨app, heq, hsub, hown, hocc⟩ := ih out
        refine ⟨app, heq, hsub.cons u, hown, ?_⟩
        intro t ht hto
        rcases List.mem_cons.mp ht with rfl | ht
        · exact xlateFold_mono ts out t (contains_str_sound out t [','] (by simp) h2)
        · exact hocc t ht hto
      · have hstep : xlateStep out u = out ++ ',' :: u := by simp [xlateStep, h1, h2]
        rw [hstep]
        obtain ⟨app, heq, hsub, hown, hocc⟩ := ih (out ++ ',' :: u)
        refine ⟨u :: app, ?_, hsub.cons₂ u, ?_, ?_⟩
        · rw [heq]
          simp
        · intro t ht
          rcases List.mem_cons.mp ht with rfl | ht
          · simpa using h1
          · exact hown t ht
        · intro t ht hto
          rcases List.mem_cons.mp ht with rfl | ht
          · exact xlateFold_mono ts (out ++ ',' :: t) t (occursFollowedBy_self out t)
          · exact hocc t ht hto

lemma tokenize_append_flatten (new : List Char) (app : List (List Char))
    (happ : ∀ t ∈ app, t ≠ [] ∧ ∀ c ∈ t, (c = ',' : Bool) = false) :
    tokenize ',' (new ++ (app.map (fun t => ',' :: t)).flatten) =
      tokenize ',' new ++ app := by
  induction app generalizing new with
  | nil => simp
  | cons t app ih =>
    have ht := happ t (by simp)
    have happ2 : ∀ u ∈ app, u ≠ [] ∧ ∀ c ∈ u, (c = ',' : Bool) = false :=
      fun u hu => happ u (by simp [hu])
    simp only [List.map_cons, List.flatten_cons]
    rw [show new ++ (',' :: t ++ (app.map (fun t => ',' :: t)).flatten) =
        new ++ ',' :: (t ++ (app.map (fun t => ',' :: t)).flatten) by simp]
    rw [show tokenize ',' (new ++ ',' :: (t ++ (app.map (fun t => ',' :: t)).flatten)) =
        tokenizeP (fun c => c = ',') (new ++ ',' :: (t ++ (app.map (fun t => ',' :: t)).flatten))
        from rfl]
    rw [tokenizeP_append_delim (fun c => c = ',') ',' (by simp) new]
    rw [show tokenizeP (fun c => c = ',') (t ++ (app.map (fun t => ',' :: t)).flatten) =
        tokenize ',' (t ++ (app.map (fun t => ',' :: t)).flatten) from rfl]
    rw [ih t happ2]
    rw [show tokenize ',' t = tokenizeP (fun c => c = ',') t from rfl]
    rw [tokenizeP_single (fun c => c = ',') t ht.1 ht.2]
    rfl

/-- Claim C1, amended: the degenerate copies are as claimed, and in the
general case the result is `new_features` followed by an appended
selection of `orig_features` tokens — a sublist of the original tokens,
none engine-owned — such that every non-owned token of `orig_features`
ends up occurring in the result followed by a comma or the end of the
string.  (The original claim's "present verbatim as a result token" must
be weakened to this right-boundary-only occurrence, which is what
`__contains_str` decides.) -/
theorem c1_xlate_amended (new_features orig_features avail_features : List Char) :
    (new_features = [] →
      node_features_p_node_xlate new_features orig_features avail_features = orig_features) ∧
    (new_features ≠ [] → orig_features = [] →
      node_features_p_node_xlate new_features orig_features avail_features = new_features) ∧
    (new_features ≠ [] → orig_features ≠ [] → ∃ app : List (List Char),
      node_features_p_node_xlate new_features orig_features avail_features =
        new_features ++ (app.map (fun t => ',' :: t)).flatten ∧
      app.Sublist (tokenize ',' orig_features) ∧
      (∀ t ∈ app, cpuinfo_features_is_str_ours t = false) ∧
      (∀ t ∈ tokenize ',' orig_features, cpuinfo_features_is_str_ours t = false →
        occursFollowedBy (node_features_p_node_xlate new_features orig_features avail_features)
          t [','] = true)) := by
  refine ⟨?_, ?_, ?_⟩
  · intro h
    simp [node_features_p_node_xlate, h]
  · intro h1 h2
    simp [node_features_p_node_xlate, h1, h2]
  · intro h1 h2
    have hx : node_features_p_node_xlate new_features orig_features avail_features =
        (tokenize ',' orig_features).foldl xlateStep new_features := by
      simp [node_features_p_node_xlate, h1, h2]
    rw [hx]
    exact xlateFold_spec (tokenize ',' orig_features) new_features

/-- Witness for C1's amended theorem at the specification's own example
inputs. -/
theorem c1_xlate_amended_witness :
    ∃ app : List (List Char),
      node_features_p_node_xlate (chars "ISA::avx2") (chars "Gen1,ISA::sse") [] =
        chars "ISA::avx2" ++ (app.map (fun t => ',' :: t)).flatten ∧
      app.Sublist (tokenize ',' (chars "Gen1,ISA::sse")) ∧
      (∀ t ∈ app, cpuinfo_features_is_str_ours t = false) ∧
      (∀ t ∈ tokenize ',' (chars "Gen1,ISA::sse"), cpuinfo_features_is_str_ours t = false →
        occursFollowedBy (node_features_p_node_xlate (chars "ISA::avx2")
          (chars "Gen1,ISA::sse") []) t [','] = true) :=
  (c1_xlate_amended (chars "ISA::avx2") (chars "Gen1,ISA::sse") []).2.2
    (by decide) (by decide)

/-- Claim C3, amended: restricted to non-empty `new_features` and
`orig_features` (the degenerate cases return verbatim copies, which the
counterexample shows violate the unrestricted claim): every token of
`new_features` is a token of the result; every non-owned token of
`orig_features` occurs in the result followed by a comma or the end of
the string (not necessarily at a token boundary); and every engine-owned
token of the result is a token of `new_features`. -/
theorem c3_reconciler_amended (new_features orig_features avail_features : List Char)
    (hn : new_features ≠ []) (ho : orig_features ≠ []) :
    (∀ t ∈ tokenize ',' new_features,
      t ∈ tokenize ',' (node_features_p_node_xlate new_features orig_features avail_features)) ∧
    (∀ t ∈ tokenize ',' orig_features, cpuinfo_features_is_str_ours t = false →
      occursFollowedBy (node_features_p_node_xlate new_features orig_features avail_features)
        t [','] = true) ∧
    (∀ t ∈ tokenize ',' (node_features_p_node_xlate new_features orig_features avail_features),
      cpuinfo_features_is_str_ours t = true → t ∈ tokenize ',' new_features) := by
  have hx : node_features_p_node_xlate new_features orig_features avail_features =
      (tokenize ',' orig_features).foldl xlateStep new_features := by
    simp [node_features_p_node_xlate, hn, ho]
  obtain ⟨app, heq, hsub, hown, hocc⟩ := xlateFold_spec (tokenize ',' orig_features) new_features
  have happ : ∀ t ∈ app, t ≠ [] ∧ ∀ c ∈ t, (c = ',' : Bool) = false := by
    intro t ht
    exact tokenizeP_mem (fun c => c = ',') orig_features t (hsub.subset ht)
  have htok : tokenize ',' (node_features_p_node_xlate new_features orig_features avail_features)
      = tokenize ',' new_features ++ app := by
    rw [hx, heq]
    exact tokenize_append_flatten new_features app happ
  refine ⟨?_, ?_, ?_⟩
  · intro t ht
    rw [htok]
    exact List.mem_append_left _ ht
  · intro t ht hto
    rw [hx]
    exact hocc t ht hto
  · intro t ht hto
    rw [htok] at ht
    rcases List.mem_append.mp ht with ht | ht
    · exact ht
    · rw [hown t ht] at hto
      cases hto

/-- Witness for C3's amended theorem at concrete nonempty inputs. -/
theorem c3_reconciler_amended_witness :
    (∀ t ∈ tokenize ',' (chars "MODEL::X1"),
      t ∈ tokenize ',' (node_features_p_node_xlate (chars "MODEL::X1") (chars "foo,ISA::sse") [])) ∧
    (∀ t ∈ tokenize ',' (chars "foo,ISA::sse"), cpuinfo_features_is_str_ours t = false →
      occursFollowedBy (node_features_p_node_xlate (chars "MODEL::X1") (chars "foo,ISA::sse") [])
        t [','] = true) ∧
    (∀ t ∈ tokenize ',' (node_features_p_node_xlate (chars "MODEL::X1") (chars "foo,ISA::sse") []),
      cpuinfo_features_is_str_ours t = true → t ∈ tokenize ',' (chars "MODEL::X1")) :=
  c3_reconciler_amended (chars "MODEL::X1") (chars "foo,ISA::sse") [] (by decide) (by decide)

lemma takeWhile_append_all (p : Char → Bool) (a b : List Char) (h : ∀ c ∈ a, p c = true) :
    (a ++ b).takeWhile p = a ++ b.takeWhile p := by
  induction a with
  | nil => simp
  | cons c a ih =>
    have hc : p c = true := h c (by simp)
    simp only [List.cons_append, List.takeWhile_cons, hc, if_true]
    rw [ih (fun x hx => h x (by simp [hx]))]

lemma dropWhile_append_all (p : Char → Bool) (a b : List Char) (h : ∀ c ∈ a, p c = true) :
    (a ++ b).dropWhile p = b.dropWhile p := by
  induction a with
  | nil => simp
  | cons c a ih =>
    have hc : p c = true := h c (by simp)
    simp only [List.cons_append, List.dropWhile_cons, hc, if_true]
    exact ih (fun x hx => h x (by simp [hx]))

lemma jobFold_acc (toks : List (List Char)) :
    ∀ acc : List Char, acc ≠ [] →
      toks.foldl jobXlateStep acc =
        acc ++ ((toks.filter cpuinfo_features_is_str_ours).map (fun u => ',' :: u)).flatten := by
  induction toks with
  | nil => intro acc hacc; simp
  | cons t ts ih =>
    intro acc hacc
    simp only [List.foldl_cons]
    by_cases h1 : cpuinfo_features_is_str_ours t = true
    · have hstep : jobXlateStep acc t = acc ++ ',' :: t := by
        simp [jobXlateStep, h1, hacc]
      rw [hstep, ih (acc ++ ',' :: t) (by simp), List.filter_cons_of_pos h1]
      simp
    · have hstep : jobXlateStep acc t = acc := by
        simp [jobXlateStep, h1]
      rw [hstep, ih acc hacc, List.filter_cons_of_neg (by simpa using h1)]

lemma jobFold_nil (toks : List (List Char)) (hne : ∀ t ∈ toks, t ≠ []) :
    toks.foldl jobXlateStep [] =
      joinComma (toks.filter cpuinfo_features_is_str_ours) := by
  induction toks with
  | nil => simp [joinComma]
  | cons t ts ih =>
    simp only [List.foldl_cons]
    by_cases h1 : cpuinfo_features_is_str_ours t = true
    · have hstep : jobXlateStep [] t = t := by simp [jobXlateStep, h1]
      rw [hstep, jobFold_acc ts t (hne t (by simp)), List.filter_cons_of_pos h1]
      simp [joinComma]
    · have hstep : jobXlateStep [] t = [] := by simp [jobXlateStep, h1]
      rw [hstep, ih (fun u hu => hne u (by simp [hu])), List.filter_cons_of_neg (by simpa using h1)]

lemma takeWhile_ne_nul_all (a : List Char) (ha : '\x00' ∉ a) :
    a.takeWhile (fun c => c ≠ '\x00') = a := by
  induction a with
  | nil => simp
  | cons c a ih =>
    have hc : c ≠ '\x00' := fun h => ha (by simp [h])
    have ha2 : '\x00' ∉ a := fun h => ha (by simp [h])
    simp [hc, ih ha2]
    intro x hx h
    subst h
    exact ha2 hx

lemma strtokMutate_visible (fuel : Nat) (jf : List Char) (hf : jf.length ≤ fuel)
    (hz : '\x00' ∉ jf) :
    cVisible (strtokMutate '&' fuel jf) =
      jf.takeWhile (fun c => c = '&') ++
        (jf.drop (jf.takeWhile (fun c => c = '&')).length).takeWhile (fun c => c ≠ '&') := by
  cases fuel with
  | zero =>
    have : jf = [] := List.eq_nil_of_length_eq_zero (by omega)
    subst this
    simp [strtokMutate, cVisible]
  | succ fuel =>
    cases hjf : jf with
    | nil => simp [strtokMutate, cVisible]
    | cons c0 jt =>
      subst hjf
      rw [show strtokMutate '&' (fuel + 1) (c0 :: jt) =
        (let lead := (c0 :: jt).takeWhile (fun c => c = '&')
         let rest := (c0 :: jt).drop lead.length
         match rest with
         | [] => lead
         | _ :: _ =>
           let tok := rest.takeWhile (fun c => c ≠ '&')
           let after := rest.drop tok.length
           match after with
           | [] => lead ++ tok
           | _ :: more => lead ++ tok ++ '\x00' :: strtokMutate '&' fuel more) from rfl]
      have hleadz : '\x00' ∉ (c0 :: jt).takeWhile (fun c => c = '&') := by
        intro hmem
        have := List.mem_takeWhile_imp hmem
        simp at this
      have hlead : ∀ c ∈ (c0 :: jt).takeWhile (fun c => c = '&'),
          (fun c => decide (c ≠ '\x00')) c = true := by
        intro c hc
        simp only [decide_eq_true_eq]
        intro he
        subst he
        exact hleadz hc
      cases hrest : (c0 :: jt).drop ((c0 :: jt).takeWhile (fun c => c = '&')).length with
      | nil =>
        simp only [hrest, cVisible]
        rw [takeWhile_ne_nul_all _ hleadz]
        simp
      | cons r rt =>
        have hrmem : ∀ c ∈ r :: rt, c ∈ c0 :: jt := by
          intro c hc
          rw [← hrest] at hc
          exact List.mem_of_mem_drop hc
        have htokz : '\x00' ∉ (r :: rt).takeWhile (fun c => c ≠ '&') := by
          intro hmem
          exact hz (hrmem _ (List.takeWhile_subset _ hmem))
        have htok : ∀ c ∈ (r :: rt).takeWhile (fun c => c ≠ '&'),
            (fun c => decide (c ≠ '\x00')) c = true := by
          intro c hc
          simp only [decide_eq_true_eq]
          intro he
          subst he
          exact htokz hc
        cases hafter : (r :: rt).drop ((r :: rt).takeWhile (fun c => c ≠ '&')).length with
        | nil =>
          simp only [hrest, hafter, cVisible]
          rw [takeWhile_append_all _ _ _ hlead, takeWhile_ne_nul_all _ htokz]
        | cons a more =>
          simp only [hrest, hafter, cVisible]
          rw [show ((c0 :: jt).takeWhile (fun c => c = '&') ++
              (r :: rt).takeWhile (fun c => c ≠ '&') ++
              '\x00' :: strtokMutate '&' fuel more) =
              ((c0 :: jt).takeWhile (fun c => c = '&') ++
              ((r :: rt).takeWhile (fun c => c ≠ '&') ++
              '\x00' :: strtokMutate '&' fuel more)) by simp]
          rw [takeWhile_append_all _ _ _ hlead, takeWhile_append_all _ _ _ htok]
          simp

/-- Claim C2, amended: the engine-owned ampersand-tokens are retained in
their original order but joined with commas (not ampersands); when no
token is owned the function returns the `strtok_r`-mutated copy, whose
C-string contents are the original expression only up to the end of its
first token (the full expression survives only when there is at most one
token). -/
theorem c2_job_xlate_amended (job_features : List Char) :
    (job_features = [] → node_features_p_job_xlate job_features = none) ∧
    (job_features ≠ [] →
      ((tokenize '&' job_features).filter cpuinfo_features_is_str_ours ≠ [] →
        node_features_p_job_xlate job_features =
          some (joinComma ((tokenize '&' job_features).filter cpuinfo_features_is_str_ours))) ∧
      ((tokenize '&' job_features).filter cpuinfo_features_is_str_ours = [] →
        '\x00' ∉ job_features →
        node_features_p_job_xlate job_features =
          some (job_features.takeWhile (fun c => c = '&') ++
            (job_features.drop (job_features.takeWhile (fun c => c = '&')).length).takeWhile
              (fun c => c ≠ '&')))) := by
  refine ⟨?_, ?_⟩
  · intro h
    simp [node_features_p_job_xlate, h]
  · intro hne
    have htoksne : ∀ t ∈ tokenize '&' job_features, t ≠ [] := by
      intro t ht
      exact (tokenizeP_mem (fun c => c = '&') job_features t ht).1
    have hfold : (tokenize '&' job_features).foldl jobXlateStep [] =
        joinComma ((tokenize '&' job_features).filter cpuinfo_features_is_str_ours) :=
      jobFold_nil (tokenize '&' job_features) htoksne
    refine ⟨?_, ?_⟩
    · intro hfilter
      cases hf : (tokenize '&' job_features).filter cpuinfo_features_is_str_ours with
      | nil => exact absurd hf hfilter
      | cons t ts =>
        have htne : t ≠ [] := by
          refine htoksne t ?_
          have : t ∈ (tokenize '&' job_features).filter cpuinfo_features_is_str_ours := by
            rw [hf]; simp
          exact List.mem_of_mem_filter this
        have houtne : joinComma (t :: ts) ≠ [] := by
          simp only [joinComma]
          intro hcon
          rcases List.append_eq_nil.mp hcon with ⟨h1, _⟩
          exact htne h1
        unfold node_features_p_job_xlate
        rw [if_neg hne]
        simp only [hfold, hf]
        rw [if_neg houtne]
    · intro hfilter hz
      have hout : (tokenize '&' job_features).foldl jobXlateStep [] = [] := by
        rw [hfold, hfilter]
        rfl
      unfold node_features_p_job_xlate
      rw [if_neg hne]
      simp only [hout, if_pos rfl]
      rw [strtokMutate_visible job_features.length job_features (le_refl _) hz]
      simp

/-- Witness for C2's amended theorem: one all-owned-and-foreign mix and
one no-owned-tokens fallback. -/
theorem c2_job_xlate_amended_witness :
    node_features_p_job_xlate (chars "ISA::sse&foo&ISA::avx") =
      some (joinComma ((tokenize '&' (chars "ISA::sse&foo&ISA::avx")).filter
        cpuinfo_features_is_str_ours)) ∧
    node_features_p_job_xlate (chars "foo&bar&baz") =
      some ((chars "foo&bar&baz").takeWhile (fun c => c = '&') ++
        ((chars "foo&bar&baz").drop
          ((chars "foo&bar&baz").takeWhile (fun c => c = '&')).length).takeWhile
          (fun c => c ≠ '&')) :=
  ⟨((c2_job_xlate_amended (chars "ISA::sse&foo&ISA::avx")).2 (by decide)).1 (by decide),
   ((c2_job_xlate_amended (chars "foo&bar&baz")).2 (by decide)).2 (by decide) (by decide)⟩

lemma foldl_or_testBit (cond : Nat → Bool) (l : List Nat) :
    ∀ (acc i : Nat),
      Nat.testBit (l.foldl (fun fl j => if cond j then fl ||| (1 <<< j) else fl) acc) i = true →
      Nat.testBit acc i = true ∨ (i ∈ l ∧ cond i = true) := by
  induction l with
  | nil =>
    intro acc i h
    exact Or.inl h
  | cons j l ih =>
    intro acc i h
    simp only [List.foldl_cons] at h
    rcases ih _ i h with hacc | ⟨hmem, hcond⟩
    · by_cases hj : cond j = true
      · rw [if_pos hj] at hacc
        rw [Nat.testBit_or] at hacc
        rcases Bool.or_eq_true_iff.mp hacc with h1 | h2
        · exact Or.inl h1
        · rw [Nat.shiftLeft_eq, one_mul, Nat.testBit_two_pow] at h2
          have : j = i := by simpa using h2
          subst this
          exact Or.inr ⟨by simp, hj⟩
      · rw [if_neg hj] at hacc
        exact Or.inl hacc
    · exact Or.inr ⟨by simp [hmem], hcond⟩

/-- Claim C4, amended: the two concrete examples hold as claimed, but in
general a bit is set exactly when `__contains_str` finds an occurrence of
the flag token bounded on the right by space, tab or end-of-string — the
left boundary is never checked, so a flag occurring as the tail of a
longer token also sets the bit (see the counterexample).  Soundness
direction: a set bit always comes with such a right-bounded occurrence. -/
theorem c4_flags_amended :
    cpuinfo_parse_flags (chars "sse sse2 ssse3 sse4_1 sse4_2 avx avx2") = 127 ∧
    cpuinfo_parse_flags (chars "sse4_2xyz") = 0 ∧
    (∀ (text : List Char) (i : Nat), Nat.testBit (cpuinfo_parse_flags text) i = true →
      i < cpuinfo_flags_strings.length ∧
      occursFollowedBy text (cpuinfo_flags_strings.getD i []) [' ', '\t'] = true) := by
  refine ⟨by decide, by decide, ?_⟩
  intro text i h
  unfold cpuinfo_parse_flags at h
  rcases foldl_or_testBit
      (fun j => contains_str text (cpuinfo_flags_strings.getD j []) [])
      (List.range cpuinfo_flags_strings.length) 0 i h with h0 | ⟨hmem, hcond⟩
  · simp at h0
  · exact ⟨List.mem_range.mp hmem, contains_str_sound_default text _ hcond⟩

/-- Witness for C4's amended soundness component at a concrete flag. -/
theorem c4_flags_amended_witness :
    Nat.testBit (cpuinfo_parse_flags (chars "avx512f")) 7 = true ∧
    7 < cpuinfo_flags_strings.length ∧
    occursFollowedBy (chars "avx512f") (cpuinfo_flags_strings.getD 7 []) [' ', '\t'] = true :=
  ⟨by decide, c4_flags_amended.2.2 (chars "avx512f") 7 (by decide)⟩

lemma digit_not_space (c : Char) (h : isDigitC c = true) : isSpaceC c = false := by
  by_contra hs
  rw [Bool.not_eq_false] at hs
  unfold isSpaceC at hs
  simp only [Bool.or_eq_true, decide_eq_true_eq] at hs
  rcases hs with ((((h1 | h1) | h1) | h1) | h1) | h1 <;> subst h1 <;> simp [isDigitC] at h

lemma digit_ne (c x : Char) (h : isDigitC c = true) (hx : isDigitC x = false) : c ≠ x := by
  intro he
  subst he
  rw [h] at hx
  cases hx

lemma strtodQ_digits (ds rest : List Char) (h1 : ds ≠ [])
    (h2 : ∀ c ∈ ds, isDigitC c = true)
    (h3 : ∀ c cs, rest = c :: cs → isDigitC c = false ∧ c ≠ '.') :
    strtodQ (ds ++ rest) = ((digitsValN ds : ℚ), ds.length) := by
  cases hds : ds with
  | nil => exact absurd hds h1
  | cons d0 ds2 =>
    subst hds
    have hd0 : isDigitC d0 = true := h2 d0 (by simp)
    unfold strtodQ
    have hws : ((d0 :: ds2) ++ rest).takeWhile isSpaceC = [] := by
      simp [List.takeWhile_cons, digit_not_space d0 hd0]
    rw [hws]
    have hsig : signOf ((d0 :: ds2) ++ rest) = (1, 0) := by
      have hm : d0 ≠ '-' := digit_ne d0 '-' hd0 (by decide)
      have hp : d0 ≠ '+' := digit_ne d0 '+' hd0 (by decide)
      simp [signOf, hm, hp]
    have hip : ((d0 :: ds2) ++ rest).takeWhile isDigitC = d0 :: ds2 := by
      rw [takeWhile_append_all isDigitC (d0 :: ds2) rest h2]
      cases hr : rest with
      | nil => simp
      | cons c cs =>
        have := (h3 c cs hr).1
        simp [List.takeWhile_cons, this]
    have hdrop : ((d0 :: ds2) ++ rest).drop (d0 :: ds2).length = rest := List.drop_left _ _
    have hfr : fracOf rest = ([], 0) := by
      cases hr : rest with
      | nil => rfl
      | cons c cs =>
        have := (h3 c cs hr).2
        simp [fracOf, this]
    simp only [hsig, List.drop_zero, hip, hdrop, hfr, List.length_nil, List.length_cons,
      Nat.add_zero, Nat.zero_add, digitsValN, List.foldl_nil]
    rw [if_neg (by simp)]
    simp [digitsValN]
    exact ⟨by rw [hfr]; rfl, by rw [hfr]⟩

lemma space_not_digit_dot (c : Char) (h : isSpaceC c = true) :
    isDigitC c = false ∧ c ≠ '.' := by
  unfold isSpaceC at h
  simp only [Bool.or_eq_true, decide_eq_true_eq] at h
  rcases h with ((((h1 | h1) | h1) | h1) | h1) | h1 <;> subst h1 <;> exact ⟨by decide, by decide⟩

lemma parse_cache_endp (ds sp u : List Char) (h1 : ds ≠ [])
    (h2 : ∀ c ∈ ds, isDigitC c = true) (h3 : ∀ c ∈ sp, isSpaceC c = true)
    (h4 : ∀ c cs, u = c :: cs → isSpaceC c = false ∧ isDigitC c = false ∧ c ≠ '.') :
    cpuinfo_parse_cache_size (ds ++ (sp ++ u)) =
      cacheFinish (cacheUnitStep (digitsValN ds : ℚ) u) := by
  have h3x : ∀ c cs, sp ++ u = c :: cs → isDigitC c = false ∧ c ≠ '.' := by
    intro c cs h
    cases hsp : sp with
    | nil =>
      rw [hsp] at h
      simp only [List.nil_append] at h
      exact (h4 c cs h).2
    | cons s0 st =>
      rw [hsp] at h
      simp only [List.cons_append, List.cons.injEq] at h
      obtain ⟨he, -⟩ := h
      subst he
      exact space_not_digit_dot s0 (h3 s0 (by rw [hsp]; simp))
  unfold cpuinfo_parse_cache_size
  rw [strtodQ_digits ds (sp ++ u) h1 h2 h3x]
  have hlen : ds.length ≠ 0 := by
    cases ds
    · exact absurd rfl h1
    · simp
  rw [if_neg (by simpa using hlen)]
  have hdw : ((ds ++ (sp ++ u)).drop ds.length).dropWhile isSpaceC = u := by
    rw [List.drop_left, dropWhile_append_all isSpaceC sp u h3]
    cases hu : u with
    | nil => rfl
    | cons c cs =>
      have := (h4 c cs hu).1
      simp [List.dropWhile_cons, this]
  rw [hdw]
  rfl

lemma truncToNat_natCast (n : Nat) : truncToNat (n : ℚ) = n := Nat.floor_natCast n

lemma truncToNat_mul1024 (n : Nat) : truncToNat ((n : ℚ) * 1024) = 1024 * n := by
  rw [show (n : ℚ) * 1024 = ((1024 * n : ℕ) : ℚ) by push_cast; ring]
  exact Nat.floor_natCast _

lemma truncToNat_mul1024sq (n : Nat) :
    truncToNat ((n : ℚ) * 1024 * 1024) = 1024 * (1024 * n) := by
  rw [show (n : ℚ) * 1024 * 1024 = ((1024 * (1024 * n) : ℕ) : ℚ) by push_cast; ring]
  exact Nat.floor_natCast _

lemma truncToNat_div1024 (n : Nat) : truncToNat ((n : ℚ) / 1024) = n / 1024 := by
  unfold truncToNat
  rw [show ((1024 : ℚ)) = ((1024 : ℕ) : ℚ) by norm_num]
  rw [Nat.floor_div_nat, Nat.floor_natCast]

/-- Claim C5 (confirmed): for any digit run `ds` and optional whitespace,
a missing unit or `K`/`KB` leave the value in kilobytes, `M`/`MB` scale by
1024, `G`/`GB` by 1024², a bare `B` divides by 1024 with truncation (Nat
division), an unrecognized unit fails, and the three specified examples
evaluate as claimed. -/
theorem c5_cache_size (ds sp : List Char) (h1 : ds ≠ [])
    (h2 : ∀ c ∈ ds, isDigitC c = true) (h3 : ∀ c ∈ sp, isSpaceC c = true) :
    cpuinfo_parse_cache_size (ds ++ (sp ++ [])) = some (digitsValN ds) ∧
    cpuinfo_parse_cache_size (ds ++ (sp ++ ['K'])) = some (digitsValN ds) ∧
    cpuinfo_parse_cache_size (ds ++ (sp ++ ['K', 'B'])) = some (digitsValN ds) ∧
    cpuinfo_parse_cache_size (ds ++ (sp ++ ['M'])) = some (1024 * digitsValN ds) ∧
    cpuinfo_parse_cache_size (ds ++ (sp ++ ['M', 'B'])) = some (1024 * digitsValN ds) ∧
    cpuinfo_parse_cache_size (ds ++ (sp ++ ['G'])) = some (1024 * (1024 * digitsValN ds)) ∧
    cpuinfo_parse_cache_size (ds ++ (sp ++ ['G', 'B'])) = some (1024 * (1024 * digitsValN ds)) ∧
    cpuinfo_parse_cache_size (ds ++ (sp ++ ['B'])) = some (digitsValN ds / 1024) ∧
    cpuinfo_parse_cache_size (ds ++ (sp ++ ['X'])) = none ∧
    cpuinfo_parse_cache_size (chars "46080 KB") = some 46080 ∧
    cpuinfo_parse_cache_size (chars "512K") = some 512 ∧
    cpuinfo_parse_cache_size (chars "8 MB") = some 8192 := by
  refine ⟨?_, ?_, ?_, ?_, ?_, ?_, ?_, ?_, ?_, ?_, ?_, ?_⟩
  · rw [parse_cache_endp ds sp [] h1 h2 h3 (by intro c cs h; cases h)]
    rw [show cacheFinish (cacheUnitStep (digitsValN ds : ℚ) []) =
      some (truncToNat (digitsValN ds : ℚ)) from rfl]
    rw [truncToNat_natCast]
  · rw [parse_cache_endp ds sp ['K'] h1 h2 h3
      (by intro c cs h; cases h; exact ⟨by decide, by decide, by decide⟩)]
    rw [show cacheFinish (cacheUnitStep (digitsValN ds : ℚ) ['K']) =
      some (truncToNat (digitsValN ds : ℚ)) from rfl]
    rw [truncToNat_natCast]
  · rw [parse_cache_endp ds sp ['K', 'B'] h1 h2 h3
      (by intro c cs h; cases h; exact ⟨by decide, by decide, by decide⟩)]
    rw [show cacheFinish (cacheUnitStep (digitsValN ds : ℚ) ['K', 'B']) =
      some (truncToNat (digitsValN ds : ℚ)) from rfl]
    rw [truncToNat_natCast]
  · rw [parse_cache_endp ds sp ['M'] h1 h2 h3
      (by intro c cs h; cases h; exact ⟨by decide, by decide, by decide⟩)]
    rw [show cacheFinish (cacheUnitStep (digitsValN ds : ℚ) ['M']) =
      some (truncToNat ((digitsValN ds : ℚ) * 1024)) from rfl]
    rw [truncToNat_mul1024]
  · rw [parse_cache_endp ds sp ['M', 'B'] h1 h2 h3
      (by intro c cs h; cases h; exact ⟨by decide, by decide, by decide⟩)]
    rw [show cacheFinish (cacheUnitStep (digitsValN ds : ℚ) ['M', 'B']) =
      some (truncToNat ((digitsValN ds : ℚ) * 1024)) from rfl]
    rw [truncToNat_mul1024]
  · rw [parse_cache_endp ds sp ['G'] h1 h2 h3
      (by intro c cs h; cases h; exact ⟨by decide, by decide, by decide⟩)]
    rw [show cacheFinish (cacheUnitStep (digitsValN ds : ℚ) ['G']) =
      some (truncToNat ((digitsValN ds : ℚ) * 1024 * 1024)) from rfl]
    rw [truncToNat_mul1024sq]
  · rw [parse_cache_endp ds sp ['G', 'B'] h1 h2 h3
      (by intro c cs h; cases h; exact ⟨by decide, by decide, by decide⟩)]
    rw [show cacheFinish (cacheUnitStep (digitsValN ds : ℚ) ['G', 'B']) =
      some (truncToNat ((digitsValN ds : ℚ) * 1024 * 1024)) from rfl]
    rw [truncToNat_mul1024sq]
  · rw [parse_cache_endp ds sp ['B'] h1 h2 h3
      (by intro c cs h; cases h; exact ⟨by decide, by decide, by decide⟩)]
    rw [show cacheFinish (cacheUnitStep (digitsValN ds : ℚ) ['B']) =
      some (truncToNat ((digitsValN ds : ℚ) / 1024)) from rfl]
    rw [truncToNat_div1024]
  · rw [parse_cache_endp ds sp ['X'] h1 h2 h3
      (by intro c cs h; cases h; exact ⟨by decide, by decide, by decide⟩)]
    rfl
  · rw [show chars "46080 KB" = ['4', '6', '0', '8', '0'] ++ ([' '] ++ ['K', 'B']) by decide]
    rw [parse_cache_endp ['4', '6', '0', '8', '0'] [' '] ['K', 'B'] (by decide) (by decide)
      (by decide) (by intro c cs h; cases h; exact ⟨by decide, by decide, by decide⟩)]
    rw [show cacheFinish (cacheUnitStep (digitsValN ['4', '6', '0', '8', '0'] : ℚ) ['K', 'B']) =
      some (truncToNat (digitsValN ['4', '6', '0', '8', '0'] : ℚ)) from rfl]
    rw [truncToNat_natCast]
    decide
  · rw [show chars "512K" = ['5', '1', '2'] ++ ([] ++ ['K']) by decide]
    rw [parse_cache_endp ['5', '1', '2'] [] ['K'] (by decide) (by decide)
      (by decide) (by intro c cs h; cases h; exact ⟨by decide, by decide, by decide⟩)]
    rw [show cacheFinish (cacheUnitStep (digitsValN ['5', '1', '2'] : ℚ) ['K']) =
      some (truncToNat (digitsValN ['5', '1', '2'] : ℚ)) from rfl]
    rw [truncToNat_natCast]
    decide
  · rw [show chars "8 MB" = ['8'] ++ ([' '] ++ ['M', 'B']) by decide]
    rw [parse_cache_endp ['8'] [' '] ['M', 'B'] (by decide) (by decide)
      (by decide) (by intro c cs h; cases h; exact ⟨by decide, by decide, by decide⟩)]
    rw [show cacheFinish (cacheUnitStep (digitsValN ['8'] : ℚ) ['M', 'B']) =
      some (truncToNat ((digitsValN ['8'] : ℚ) * 1024)) from rfl]
    rw [truncToNat_mul1024]
    decide

/-- Witness for C5 at the concrete input "42 K". -/
theorem c5_cache_size_witness :
    cpuinfo_parse_cache_size (['4', '2'] ++ ([' '] ++ ['K'])) = some (digitsValN ['4', '2']) :=
  (c5_cache_size ['4', '2'] [' '] (by decide) (by decide) (by decide)).2.1

lemma emitFold_from_comma (atoms : List (List Char)) :
    ∀ s : List Char,
      (atoms.foldl emitAtom (s, [','])).1 = s ++ (atoms.map (fun a => ',' :: a)).flatten := by
  induction atoms with
  | nil => intro s; simp
  | cons a atoms ih =>
    intro s
    simp only [List.foldl_cons]
    rw [show emitAtom (s, [',']) a = (s ++ ',' :: a, [',']) by simp [emitAtom]]
    rw [ih (s ++ ',' :: a)]
    simp

lemma emitFold_joinComma (atoms : List (List Char)) :
    (atoms.foldl emitAtom ([], ([] : List Char))).1 = joinComma atoms := by
  cases atoms with
  | nil => rfl
  | cons a atoms =>
    simp only [List.foldl_cons]
    rw [show emitAtom ([], ([] : List Char)) a = (a, [',']) by simp [emitAtom]]
    rw [emitFold_from_comma atoms a]
    rfl

lemma filter_emit_fold (p : Nat → Bool) (f : Nat → List Char) (l : List Nat) :
    ∀ sd : List Char × List Char,
      l.foldl (fun sd i => if p i then emitAtom sd (f i) else sd) sd =
        ((l.filter p).map f).foldl emitAtom sd := by
  induction l with
  | nil => intro sd; simp
  | cons i l ih =>
    intro sd
    by_cases hp : p i = true
    · simp only [List.foldl_cons, hp, if_true, List.filter_cons_of_pos hp, List.map_cons]
      exact ih (emitAtom sd (f i))
    · simp only [List.foldl_cons, hp, if_false,
        List.filter_cons_of_neg (by simpa using hp)]
      exact ih sd

lemma and_shiftLeft_eq_testBit (flags i : Nat) :
    (flags &&& 1 <<< i = 1 <<< i) = (flags.testBit i = true) := by
  rw [Nat.shiftLeft_eq, one_mul, Nat.and_two_pow]
  cases hb : flags.testBit i with
  | true => simp
  | false =>
    simp only [Bool.toNat_false, Nat.zero_mul, Bool.false_eq_true, eq_iff_iff, iff_false]
    have : (2 : Nat) ^ i ≠ 0 := Nat.pos_iff_ne_zero.mp (Nat.pos_pow_of_pos i (by omega))
    omega

lemma isa_emit_fold (cif : cpuinfo_features) (sd : List Char × List Char) :
    ((List.range cpuinfo_flags_strings.length).foldl
      (fun sd i => if cif.flags &&& (1 <<< i) = 1 <<< i then
        emitAtom sd (chars "ISA::" ++ cpuinfo_flags_strings.getD i []) else sd) sd) =
    (((List.range cpuinfo_flags_strings.length).filter (fun i => cif.flags.testBit i)).map
      (fun i => chars "ISA::" ++ cpuinfo_flags_strings.getD i [])).foldl emitAtom sd := by
  simp only [and_shiftLeft_eq_testBit]
  exact filter_emit_fold (fun i => cif.flags.testBit i)
    (fun i => chars "ISA::" ++ cpuinfo_flags_strings.getD i []) _ sd

lemma node_state_features_shape (cif : cpuinfo_features) :
    node_state_features cif = ((featureAtoms cif).foldl emitAtom ([], [])).1 := by
  unfold node_state_features featureAtoms
  cases cif.vendor_id with
  | none =>
    cases cif.model_name with
    | none =>
      simp only [List.nil_append, List.foldl_nil]
      rw [isa_emit_fold]
    | some m =>
      simp only [List.nil_append, List.cons_append, List.foldl_cons, List.foldl_append,
        List.foldl_nil]
      rw [isa_emit_fold]
  | some v =>
    cases cif.model_name with
    | none =>
      simp only [List.nil_append, List.cons_append, List.foldl_cons, List.foldl_append,
        List.foldl_nil]
      rw [isa_emit_fold]
    | some m =>
      simp only [List.nil_append, List.cons_append, List.foldl_cons, List.foldl_append,
        List.foldl_nil]
      rw [isa_emit_fold]

lemma cache_not_pref_head (b : Char) (bs : List Char) (hb : b ≠ 'C') :
    (chars "CACHE::").isPrefixOf (b :: bs) = false := by
  rw [show chars "CACHE::" = 'C' :: chars "ACHE::" from rfl]
  simp only [List.isPrefixOf, Bool.and_eq_false_iff]
  left
  simpa using fun h => hb h.symm

/-- Claim C7 (confirmed): the rendered feature string is exactly the
comma-join of the atoms in the fixed order VENDOR (if present), MODEL (if
present), CACHE, then ISA flags in enumeration order, and a CACHE atom is
emitted precisely when the model name is present — a record with a cache
size but no model name emits no CACHE feature. -/
theorem c7_render_order (cif : cpuinfo_features) :
    node_state_features cif = joinComma (featureAtoms cif) ∧
    (featureAtoms cif).any (fun a => (chars "CACHE::").isPrefixOf a) = cif.model_name.isSome := by
  constructor
  · rw [node_state_features_shape cif]
    exact emitFold_joinComma (featureAtoms cif)
  · cases hm : cif.model_name with
    | none =>
      rw [show (Option.none : Option (List Char)).isSome = false from rfl]
      rw [List.any_eq_false]
      intro a ha
      simp only [featureAtoms, hm, List.append_nil, List.nil_append] at ha
      rcases List.mem_append.mp ha with hv | hisa
      · cases hvv : cif.vendor_id with
        | none => rw [hvv] at hv; simp at hv
        | some v =>
          rw [hvv] at hv
          simp at hv
          subst hv
          rw [show chars "VENDOR::" ++ v = 'V' :: (chars "ENDOR::" ++ v) from rfl]
          simp [cache_not_pref_head 'V' _ (by decide)]
      · obtain ⟨i, hi, rfl⟩ := List.mem_map.mp hisa
        rw [show chars "ISA::" ++ cpuinfo_flags_strings.getD i [] =
          'I' :: (chars "SA::" ++ cpuinfo_flags_strings.getD i []) from rfl]
        simp [cache_not_pref_head 'I' _ (by decide)]
    | some m =>
      rw [show (Option.some m).isSome = true from rfl]
      rw [List.any_eq_true]
      refine ⟨chars "CACHE::" ++ (Nat.repr cif.cache_kb).data ++ chars "KB", ?_, ?_⟩
      · simp [featureAtoms, hm]
      · rw [List.append_assoc]
        exact List.isPrefixOf_iff_prefix.mpr (List.prefix_append _ _)

lemma consumeChunk_spec (chunk : List Char) :
    ∀ line : List Char,
      ∃ d, (consumeChunk chunk line).2.1 = line ++ d ∧
        chunk = d ++ (consumeChunk chunk line).1 ∧
        ((consumeChunk chunk line).2.2 = true →
          ∃ d0 t, d = d0 ++ [t] ∧ isTermC t = true) ∧
        ((consumeChunk chunk line).2.2 = false → (consumeChunk chunk line).1 = []) ∧
        ((consumeChunk chunk line).1 ≠ [] → (consumeChunk chunk line).2.2 = true) := by
  induction chunk with
  | nil =>
    intro line
    exact ⟨[], by simp [consumeChunk], by simp [consumeChunk], by simp [consumeChunk],
      by simp [consumeChunk], by simp [consumeChunk]⟩
  | cons c rest ih =>
    intro line
    by_cases hc : isTermC c = true
    · refine ⟨[c], ?_, ?_, ?_, ?_, ?_⟩ <;> simp [consumeChunk, hc]
      exact ⟨[], c, by simp, hc⟩
    · have hcc : consumeChunk (c :: rest) line = consumeChunk rest (line ++ [c]) := by
        simp [consumeChunk, hc]
      obtain ⟨d, h1, h2, h3, h4, h5⟩ := ih (line ++ [c])
      rw [hcc]
      refine ⟨c :: d, ?_, ?_, ?_, h4, h5⟩
      · rw [h1]; simp
      · rw [show c :: d ++ (consumeChunk rest (line ++ [c])).1 =
          c :: (d ++ (consumeChunk rest (line ++ [c])).1) by simp]
        rw [← h2]
      · intro hdone
        obtain ⟨d0, t, hd, ht⟩ := h3 hdone
        exact ⟨c :: d0, t, by rw [hd]; simp, ht⟩


lemma nextlineF_eq_none (fuel : Nat) (r : LineReader) (line : List Char)
    (hch : (consumeChunk r.chunk line).1 = [])
    (hrd : (streamRead r.stream r.chunk_size).1 = []) :
    nextlineF (fuel + 1) r line =
      (none, { r with
        stream := (streamRead r.stream r.chunk_size).2,
        chunk := [],
        err_code := if (streamRead r.stream r.chunk_size).2.ioerr then (-1 : Int) else 0 }) := by
  unfold nextlineF
  simp [hch, hrd]

lemma nextlineF_eq_refill (fuel : Nat) (r : LineReader) (line : List Char)
    (hch : (consumeChunk r.chunk line).1 = [])
    (hrd : (streamRead r.stream r.chunk_size).1 ≠ []) :
    nextlineF (fuel + 1) r line =
      nextlineF fuel
        { r with
          stream := (streamRead r.stream r.chunk_size).2,
          chunk := (streamRead r.stream r.chunk_size).1 }
        (consumeChunk r.chunk line).2.1 := by
  conv_lhs => unfold nextlineF
  simp [hch, hrd]

lemma nextlineF_eq_yield (fuel : Nat) (r : LineReader) (line : List Char)
    (hch : (consumeChunk r.chunk line).1 ≠ []) :
    nextlineF (fuel + 1) r line =
      (some (consumeChunk r.chunk line).2.1, { r with chunk := (consumeChunk r.chunk line).1 }) := by
  unfold nextlineF
  simp [hch]

lemma nextlineF_spec :
    ∀ (fuel : Nat) (r : LineReader) (line : List Char),
      1 ≤ r.chunk_size → r.stream.data.length < fuel →
      (∀ l r2, nextlineF fuel r line = (some l, r2) →
        (∃ d, lrPending r = d ++ lrPending r2 ∧ l = line ++ d ∧ d ≠ [] ∧
          (∃ l0 t, l = l0 ++ [t] ∧ isTermC t = true)) ∧
        r2.stream.ioerr = r.stream.ioerr ∧ r2.chunk_size = r.chunk_size ∧
        r2.err_code = r.err_code) ∧
      (∀ r2, nextlineF fuel r line = (none, r2) →
        lrPending r2 = [] ∧ r2.stream.ioerr = r.stream.ioerr ∧
        r2.chunk_size = r.chunk_size ∧
        r2.err_code = (if r.stream.ioerr then (-1 : Int) else 0)) := by
  intro fuel
  induction fuel with
  | zero =>
    intro r line hcs hf
    omega
  | succ fuel ih =>
    intro r line hcs hf
    obtain ⟨d0, hc1, hc2, hc3, hc4, hc5⟩ := consumeChunk_spec r.chunk line
    by_cases hch : (consumeChunk r.chunk line).1 = []
    · by_cases hrd : (streamRead r.stream r.chunk_size).1 = []
      · have hres := nextlineF_eq_none fuel r line hch hrd
        have hdata : r.stream.data = [] := by
          unfold streamRead at hrd
          simp only at hrd
          cases hd : r.stream.data with
          | nil => rfl
          | cons x xs =>
            rw [hd] at hrd
            cases hk : r.chunk_size with
            | zero => omega
            | succ k => rw [hk] at hrd; simp at hrd
        constructor
        · intro l r2 heq
          rw [hres] at heq
          cases heq
        · intro r2 heq
          rw [hres] at heq
          injection heq with h1 h2
          subst h2
          refine ⟨?_, by simp [streamRead], by simp, by simp [streamRead]⟩
          simp [lrPending, streamRead, hdata]
      · have hres := nextlineF_eq_refill fuel r line hch hrd
        have hdata : r.stream.data ≠ [] := by
          intro hd
          unfold streamRead at hrd
          simp [hd] at hrd
        have hf2 : ((streamRead r.stream r.chunk_size).2).data.length < fuel := by
          unfold streamRead
          simp only
          rw [List.length_drop]
          cases hd : r.stream.data with
          | nil => exact absurd hd hdata
          | cons x xs =>
            have hf3 : (x :: xs).length < fuel + 1 := by rw [← hd]; exact hf
            simp at hf3 ⊢
            omega
        have hpend : lrPending r = d0 ++ lrPending
            { r with
              stream := (streamRead r.stream r.chunk_size).2,
              chunk := (streamRead r.stream r.chunk_size).1 } := by
          unfold lrPending streamRead
          simp only
          rw [List.take_append_drop]
          conv_lhs => rw [hc2, hch]
          simp
        obtain ⟨ihsome, ihnone⟩ := ih
          { r with
            stream := (streamRead r.stream r.chunk_size).2,
            chunk := (streamRead r.stream r.chunk_size).1 }
          (consumeChunk r.chunk line).2.1 hcs hf2
        constructor
        · intro l r2 heq
          rw [hres] at heq
          obtain ⟨⟨d1, hp1, hp2, hp3, hp4⟩, he1, he2, he3⟩ := ihsome l r2 heq
          refine ⟨⟨d0 ++ d1, ?_, ?_, ?_, hp4⟩, by simpa using he1, by simpa using he2,
            by simpa using he3⟩
          · rw [hpend, hp1]
            simp
          · rw [hp2, hc1]
            simp
          · intro hco
            rcases List.append_eq_nil.mp hco with ⟨-, h2⟩
            exact hp3 h2
        · intro r2 heq
          rw [hres] at heq
          obtain ⟨he0, he1, he2, he3⟩ := ihnone r2 heq
          exact ⟨he0, by simpa using he1, by simpa using he2, by simpa using he3⟩
    · have hres := nextlineF_eq_yield fuel r line hch
      have hdone := hc5 hch
      constructor
      · intro l r2 heq
        rw [hres] at heq
        injection heq with h1 h2
        injection h1 with h1
        subst h1
        subst h2
        obtain ⟨dd0, tt, hdt, htt⟩ := hc3 hdone
        refine ⟨⟨d0, ?_, hc1, ?_, ?_⟩, by simp, by simp, by simp⟩
        · unfold lrPending
          simp only
          conv_lhs => rw [hc2]
          simp
        · intro hd0
          rw [hd0] at hdt
          simp at hdt
        · exact ⟨line ++ dd0, tt, by rw [hc1, hdt]; simp, htt⟩
      · intro r2 heq
        rw [hres] at heq
        cases heq

lemma readAllF_spec :
    ∀ (fuel : Nat) (r : LineReader), 1 ≤ r.chunk_size → (lrPending r).length < fuel →
      (∃ rest, lrPending r = (readAllF fuel r).1.flatten ++ rest) ∧
      (∀ l ∈ (readAllF fuel r).1, ∃ l0 t, l = l0 ++ [t] ∧ isTermC t = true) ∧
      (readAllF fuel r).2.err_code = (if r.stream.ioerr then (-1 : Int) else 0) := by
  intro fuel
  induction fuel with
  | zero =>
    intro r hcs hp
    omega
  | succ fuel ih =>
    intro r hcs hp
    have hdlt : r.stream.data.length < r.stream.data.length + 1 := by omega
    obtain ⟨hsome, hnone⟩ :=
      nextlineF_spec (r.stream.data.length + 1) r [] hcs hdlt
    cases hnl : line_reader_nextline r with
    | mk o r2 =>
      cases o with
      | none =>
        obtain ⟨hp0, hio, hcsz, herr⟩ := hnone r2 hnl
        have hres : readAllF (fuel + 1) r = ([], r2) := by
          conv_lhs => unfold readAllF
          rw [hnl]
        rw [hres]
        exact ⟨⟨lrPending r, by simp⟩, by simp, by simpa using herr⟩
      | some l =>
        obtain ⟨⟨d, hd1, hd2, hd3, hd4⟩, hio, hcsz, herr⟩ := hsome l r2 hnl
        have hres : readAllF (fuel + 1) r = (l :: (readAllF fuel r2).1, (readAllF fuel r2).2) := by
          conv_lhs => unfold readAllF
          rw [hnl]
        have hlen2 : (lrPending r2).length < fuel := by
          have : (lrPending r).length = d.length + (lrPending r2).length := by
            rw [hd1]
            simp
          have hdlen : 1 ≤ d.length := by
            cases d with
            | nil => exact absurd rfl hd3
            | cons a as => simp
          omega
        obtain ⟨⟨rest, hrest⟩, hterm, herr2⟩ := ih r2 (by omega) hlen2
        rw [hres]
        refine ⟨⟨rest, ?_⟩, ?_, ?_⟩
        · rw [hd1, hrest]
          simp only [List.flatten_cons]
          rw [hd2]
          simp
        · intro u hu
          rcases List.mem_cons.mp hu with rfl | hu
          · exact hd4
          · exact hterm u hu
        · rw [herr2, hio]

lemma create_cs_pos (cs : Nat) : 1 ≤ line_reader_create_cs cs := by
  unfold line_reader_create_cs
  by_cases h : cs < 128
  · simp [h]
  · simp [h]
    omega

/-- Claim C8, amended: an open failure makes `cpuinfo_parse_file` return
false; once the file is open the function returns true for every stream,
including streams that end in a read error (malformed lines never abort
the parse, and the reader's noted error code is never consulted); the
read error is still signalled distinctly in the reader's error code (−1,
against 0 for a clean end of stream). -/
theorem c8_error_amended :
    (∀ (cif : cpuinfo_features) (content : List Char) (ioerr : Bool),
      cpuinfo_parse_file cif false content ioerr = (false, cif)) ∧
    (∀ (cif : cpuinfo_features) (content : List Char) (ioerr : Bool),
      (cpuinfo_parse_file cif true content ioerr).1 = true) ∧
    (∀ (content : List Char) (cs : Nat), (lrRun content true cs).2 = -1) ∧
    (∀ (content : List Char) (cs : Nat), (lrRun content false cs).2 = 0) := by
  have herr : ∀ (content : List Char) (ioerr : Bool) (cs : Nat),
      (lrRun content ioerr cs).2 = (if ioerr then (-1 : Int) else 0) := by
    intro content ioerr cs
    unfold lrRun
    obtain ⟨-, -, he⟩ := readAllF_spec (content.length + 1)
      ⟨⟨content, ioerr⟩, 0, line_reader_create_cs cs, []⟩
      (create_cs_pos cs) (by simp [lrPending])
    simpa using he
  refine ⟨?_, ?_, ?_, ?_⟩
  · intro cif content ioerr
    simp [cpuinfo_parse_file]
  · intro cif content ioerr
    simp [cpuinfo_parse_file]
  · intro content cs
    simpa using herr content true cs
  · intro content cs
    simpa using herr content false cs

lemma flatten_ends_term (ls : List (List Char))
    (h : ∀ l ∈ ls, ∃ l0 t, l = l0 ++ [t] ∧ isTermC t = true) :
    ls.flatten = [] ∨ ∃ f0 t, ls.flatten = f0 ++ [t] ∧ isTermC t = true := by
  induction ls with
  | nil => exact Or.inl rfl
  | cons l ls ih =>
    rcases ih (fun u hu => h u (by simp [hu])) with hnil | ⟨f0, t, hf, ht⟩
    · obtain ⟨l0, t, hl, ht⟩ := h l (by simp)
      right
      refine ⟨l0, t, ?_, ht⟩
      simp [hnil, hl]
    · right
      refine ⟨l ++ f0, t, ?_, ht⟩
      simp [hf]

lemma takeWhile_blocked_le (p : Char → Bool) (t : Char) (ht : p t = false) :
    ∀ (a b : List Char), ((a ++ t :: b).takeWhile p).length ≤ a.length := by
  intro a
  induction a with
  | nil =>
    intro b
    simp [List.takeWhile_cons, ht]
  | cons c a ih =>
    intro b
    by_cases hc : p c = true
    · simp only [List.cons_append, List.takeWhile_cons, hc, if_true, List.length_cons]
      have := ih b
      omega
    · simp only [List.cons_append, List.takeWhile_cons, hc]
      simp

lemma ends_term_le_termEnd (content A rest : List Char) (hsplit : content = A ++ rest)
    (hA : A = [] ∨ ∃ f0 t, A = f0 ++ [t] ∧ isTermC t = true) :
    A.length ≤ termEnd content := by
  rcases hA with rfl | ⟨f0, t, rfl, ht⟩
  · simp
  · subst hsplit
    unfold termEnd
    have hrev : ((f0 ++ [t]) ++ rest).reverse = rest.reverse ++ t :: f0.reverse := by
      simp
    rw [hrev]
    have hblock := takeWhile_blocked_le (fun c => !(isTermC c)) t (by simp [ht])
      rest.reverse f0.reverse
    have hlen : ((f0 ++ [t]) ++ rest).length = f0.length + 1 + rest.length := by
      simp
      omega
    rw [hlen]
    simp only [List.length_append, List.length_cons] at hblock ⊢
    simp at hblock ⊢
    omega

/-- Claim C10 (confirmed): on a stream whose final line has no `'\n'` or
NUL terminator, the reader finishes with error code 0 (the NULL return is
a clean end-of-stream signal), and the bytes it ever yields form a prefix
of the content that ends at a line terminator — in particular the yielded
bytes never reach past the last terminator, so the unterminated tail
(which is nonempty here) is never given to `cpuinfo_parse_file`. -/
theorem c10_unterminated_final_line (content : List Char) (cs : Nat) (hne : content ≠ [])
    (hlast : isTermC (content.getLast hne) = false) :
    (lrRun content false cs).2 = 0 ∧
    (∃ rest, (lrRun content false cs).1.flatten ++ rest = content) ∧
    ((lrRun content false cs).1.flatten).length ≤ termEnd content ∧
    termEnd content < content.length := by
  obtain ⟨⟨rest, hrest⟩, hterm, herr⟩ := readAllF_spec (content.length + 1)
    ⟨⟨content, false⟩, 0, line_reader_create_cs cs, []⟩ (create_cs_pos cs)
    (by simp [lrPending])
  have hpend : lrPending ⟨⟨content, false⟩, 0, line_reader_create_cs cs, []⟩ = content := by
    simp [lrPending]
  rw [hpend] at hrest
  have hrun1 : (lrRun content false cs).1 =
      (readAllF (content.length + 1) ⟨⟨content, false⟩, 0, line_reader_create_cs cs, []⟩).1 := rfl
  have hrun2 : (lrRun content false cs).2 =
      (readAllF (content.length + 1)
        ⟨⟨content, false⟩, 0, line_reader_create_cs cs, []⟩).2.err_code := rfl
  refine ⟨?_, ?_, ?_, ?_⟩
  · rw [hrun2]
    simpa using herr
  · rw [hrun1]
    exact ⟨rest, hrest.symm⟩
  · rw [hrun1]
    exact ends_term_le_termEnd content _ rest hrest (flatten_ends_term _ hterm)
  · unfold termEnd
    have hrev : content.reverse = content.getLast hne :: content.dropLast.reverse := by
      conv_lhs => rw [← List.dropLast_append_getLast hne]
      simp
    rw [hrev]
    rw [List.takeWhile_cons]
    rw [show (!(isTermC (content.getLast hne))) = true by simp [hlast]]
    have hlen1 : 1 ≤ content.length := by
      cases content
      · exact absurd rfl hne
      · simp
    simp only [if_true, List.length_cons]
    omega

/-- Witness for C10 on the stream "ab\ncd", whose final line `cd` is
unterminated. -/
theorem c10_unterminated_final_line_witness :
    (lrRun (chars "ab\ncd") false 0).2 = 0 ∧
    (∃ rest, (lrRun (chars "ab\ncd") false 0).1.flatten ++ rest = chars "ab\ncd") ∧
    ((lrRun (chars "ab\ncd") false 0).1.flatten).length ≤ termEnd (chars "ab\ncd") ∧
    termEnd (chars "ab\ncd") < (chars "ab\ncd").length :=
  c10_unterminated_final_line (chars "ab\ncd") 0 (by decide) (by decide)
